import Mathlib

/-!
Verification of the MrDice federation layer (repository styxhuang/matmaster-Mr-dice).

This file gives a shallow embedding, in Lean 4, of the pure core of the
repository: the ranking stage (mrdice_server/ranker.py), the cross-option
deduplication and the fallback logic of the unified search entry
(mrdice_server/core/server.py), the parallel fan-out bookkeeping
(mrdice_server/search/searcher.py), the multi-source final selection
(mrdice_server/core/server.py), and the fair quota allocator
(mrdice_server/database/optimade_database/optimade_test/utils.py).

Python dictionaries are modelled as association lists in insertion order
with distinct keys; external effects (network retrievers, the LLM
preprocessor and correction oracle) are abstracted as explicit function or
data parameters.  Machine integers are modelled as Int or Nat (Python
integers are unbounded, so no overflow modelling is needed).
-/

namespace MrDice

/-- Normalized search result record, following `SearchResult` in
mrdice_server/schema.py.  Optional float fields (band gap, formation
energy) are modelled over the rationals; they are never inspected by the
core logic verified here. -/
structure SearchResult where
  name : Option String
  structure_file : Option String
  formula : Option String
  elements : List String
  space_group : Option String
  n_atoms : Option Int
  band_gap : Option Rat
  formation_energy : Option Rat
  source : Option String
  id : Option String
deriving DecidableEq, Repr

/-- A blank record (all fields empty); convenient base point for tests. -/
def emptyResult : SearchResult :=
  ⟨none, none, none, [], none, none, none, none, none, none⟩

/-- Python expression `o or d` for an optional string `o`: `None` and the
empty string are falsy, every other string is truthy. -/
def strOr (o : Option String) (d : String) : String :=
  match o with
  | none => d
  | some s => if s = "" then d else s

/-- Python substring test `needle in haystack` on code points. -/
def pyIn (needle haystack : String) : Bool :=
  decide (needle.data <:+: haystack.data)

/-- Python `str.strip()`: drop whitespace from both ends. -/
def pyStrip (s : String) : String :=
  ⟨((s.data.dropWhile Char.isWhitespace).reverse.dropWhile Char.isWhitespace).reverse⟩

/-! ## Ranker (mrdice_server/ranker.py) -/

/-- `_count_element_overlap`: size of the intersection of the two sets of
nonempty element symbols (`len(set(target) & set(candidate))` after
dropping falsy entries).  `List.dedup` gives each distinct element once. -/
def _count_element_overlap (target candidate : List String) : Nat :=
  (((target.filter (fun e => e ≠ "")).dedup).filter
    (fun e => e ∈ candidate.filter (fun e => e ≠ ""))).length

/-- `_keyword_overlap_score`: 0 when the keyword list or the text is empty,
otherwise the number of keywords occurring case-insensitively as a
substring of the text. -/
def _keyword_overlap_score (keywords : List String) (text : String) : Nat :=
  if keywords = [] ∨ text = "" then 0
  else (keywords.filter (fun k => pyIn k.toLower text.toLower)).length

/-- `score_result`: +2 for an exact formula match (when a formula was
requested), +2 for an exact space-group match (when one was requested),
plus element overlap, plus keyword hits in the name and in the formula. -/
def score_result (r : SearchResult) (formula space_group : String)
    (elements keywords : List String) : Nat :=
  (if formula ≠ "" ∧ r.formula = some formula then 2 else 0)
  + (if space_group ≠ "" ∧ r.space_group = some space_group then 2 else 0)
  + _count_element_overlap elements r.elements
  + _keyword_overlap_score keywords (strOr r.name "")
  + _keyword_overlap_score keywords (strOr r.formula "")

/-- `rank_results`: pair every record with its score, sort by score
descending, and drop the scores.  CPython `list.sort` is a stable sort, so
it computes exactly `List.mergeSort` with the comparator
`fun x y => y.score ≤ x.score` (any two stable sorts under one total
preorder return the same list). -/
def rank_results (results : List SearchResult) (formula space_group : String)
    (elements keywords : List String) : List SearchResult :=
  let scored := results.map
    (fun r => (score_result r formula space_group elements keywords, r))
  (scored.mergeSort (fun x y => decide (y.1 ≤ x.1))).map (fun p => p.2)

/-! ## Cross-option dedup (core/server.py, fetch_structures_from_db) -/

/-- Identity key of the dedup loop:
`(r.get("source") or "", r.get("id") or r.get("name") or "")`. -/
def dedupKey (r : SearchResult) : String × String :=
  (strOr r.source "", strOr r.id (strOr r.name ""))

/-- The dedup loop over a stream of results, carrying the `seen_keys` set:
a record is kept iff its key was not seen before, first occurrence wins. -/
def dedupFrom (seen : List (String × String)) : List SearchResult → List SearchResult
  | [] => []
  | r :: rest =>
    if dedupKey r ∈ seen then dedupFrom seen rest
    else r :: dedupFrom (dedupKey r :: seen) rest

/-- The `seen_keys` set after the loop has consumed a stream of results. -/
def seenAfter (seen : List (String × String)) : List SearchResult → List (String × String)
  | [] => seen
  | r :: rest =>
    if dedupKey r ∈ seen then seenAfter seen rest
    else seenAfter (dedupKey r :: seen) rest

/-- Merging a stream of results with identity-key dedup, as done across
element-set options (and across sources) in `fetch_structures_from_db`:
`seen_keys` starts empty and the first occurrence of each key is kept. -/
def dedup_results (rs : List SearchResult) : List SearchResult :=
  dedupFrom [] rs

/-! ## Parallel fan-out (mrdice_server/search/searcher.py) -/

/-- `ALL_DATABASE_NAMES`: the databases searched in parallel. -/
def ALL_DATABASE_NAMES : List String :=
  ["bohriumpublic", "mofdbsql", "openlam", "optimade"]

/-- Outcome of one external retriever invocation: either a result list or
a raised exception, abstracted as its message string. -/
def FetchBehavior : Type :=
  String → Except String (List SearchResult)

/-- `_search_single_db`: `_get_retriever` yields a retriever only for the
registered database names (else the task logs a warning and returns an
empty list with no error); the `try`/`except` converts a raised exception
into `(db_name, [], error)`. -/
def _search_single_db (fetch : FetchBehavior) (db_name : String) :
    String × List SearchResult × Option String :=
  if db_name ∈ ALL_DATABASE_NAMES then
    match fetch db_name with
    | .ok results => (db_name, results, none)
    | .error e => (db_name, [], some e)
  else
    (db_name, [], none)

/-- Python dict assignment `d[k] = v` on an insertion-ordered association
list: overwrite in place if the key exists, else append. -/
def dictSet {β : Type} (d : List (String × β)) (k : String) (v : β) :
    List (String × β) :=
  match d with
  | [] => [(k, v)]
  | (k₁, v₁) :: rest => if k₁ = k then (k, v) :: rest else (k₁, v₁) :: dictSet rest k v

/-- Python dict lookup `d.get(k)`. -/
def dictGet {β : Type} (d : List (String × β)) (k : String) : Option β :=
  (d.find? (fun p => p.1 = k)).map (fun p => p.2)

/-- `search_databases_parallel_with_errors`: run one task per requested
database (`asyncio.gather` returns the task values in task order; the
tasks themselves never raise, since `_search_single_db` catches every
exception), then fold the triples into the result and error dicts. -/
def search_databases_parallel_with_errors (fetch : FetchBehavior)
    (db_names : List String) :
    List (String × List SearchResult) × List (String × String) :=
  if db_names = [] then ([], [])
  else
    let gathered := db_names.map (_search_single_db fetch)
    gathered.foldl
      (fun acc item =>
        let dbr := dictSet acc.1 item.1 item.2.1
        let dbe := match item.2.2 with
          | some e => dictSet acc.2 item.1 e
          | none => acc.2
        (dbr, dbe))
      ([], [])

/-- Step function of the fan-out result/error accumulation. -/
def gatherStep (acc : List (String × List SearchResult) × List (String × String))
    (item : String × List SearchResult × Option String) :
    List (String × List SearchResult) × List (String × String) :=
  let dbr := dictSet acc.1 item.1 item.2.1
  let dbe := match item.2.2 with
    | some e => dictSet acc.2 item.1 e
    | none => acc.2
  (dbr, dbe)

/-! ## Merge, final selection and fallback (mrdice_server/core/server.py) -/

/-- One round of the round-robin interleave in `_merge_results_multi_db`:
`for L in lists: if idx < len(L): out.append(L[idx])`. -/
def rrRow (lists : List (List SearchResult)) (idx : Nat) : List SearchResult :=
  lists.filterMap (fun L => L.get? idx)

/-- The `while True` interleave loop, advancing `idx` until a round adds
nothing.  The loop runs at most `maxLen + 1` rounds (a round at
`idx ≥ maxLen` adds nothing), so passing that bound as structural fuel
reproduces the loop exactly. -/
def rrMerge (lists : List (List SearchResult)) : Nat → Nat → List SearchResult
  | 0, _ => []
  | fuel + 1, idx =>
    let row := rrRow lists idx
    if row = [] then [] else row ++ rrMerge lists fuel (idx + 1)

/-- `_merge_results_multi_db`: interleave the per-database result lists
(in requested order) round-robin, so no database is buried behind
another. -/
def _merge_results_multi_db (db_results : List (String × List SearchResult))
    (db_names : List String) : List SearchResult :=
  let lists := db_names.map (fun db => (dictGet db_results db).getD [])
  let maxLen := (lists.map List.length).foldr Nat.max 0
  rrMerge lists (maxLen + 1) 0

/-- Source key used to group ranked results:
`(r.get("source") or "").strip() or "unknown"`. -/
def srcKey (r : SearchResult) : String :=
  let s := pyStrip (strOr r.source "")
  if s = "" then "unknown" else s

/-- Identity triple of `add_one` in `_take_n_results_with_sources`:
`(r.get("source"), r.get("id"), r.get("name"))` (raw optional values). -/
def idKey (r : SearchResult) : Option String × Option String × Option String :=
  (r.source, r.id, r.name)

/-- `add_one`: append `r` to the output unless its identity triple was
already chosen. -/
def addOne (st : List (Option String × Option String × Option String) × List SearchResult)
    (r : SearchResult) :
    List (Option String × Option String × Option String) × List SearchResult :=
  if idKey r ∈ st.1 then st else (idKey r :: st.1, st.2 ++ [r])

/-- The by-rank fill loop: `for r in ranked: if len(out) >= n_results:
break; add_one(r)`. -/
def fillByRank (n : Nat) :
    List (Option String × Option String × Option String) × List SearchResult →
    List SearchResult →
    List (Option String × Option String × Option String) × List SearchResult
  | st, [] => st
  | st, r :: rest => if n ≤ st.2.length then st else fillByRank n (addOne st r) rest

/-- `_take_n_results_with_sources`: with more than one requested database,
first take one result from each requested database present in `ranked`
(grouping preserves rank order, so the representative is the first ranked
record of that source), then fill the remaining slots by rank, and cap at
`n_results`. -/
def _take_n_results_with_sources (ranked : List SearchResult) (n_results : Int)
    (db_names : List String) : List SearchResult :=
  if ranked = [] ∨ n_results ≤ 0 then []
  else if db_names.length ≤ 1 then ranked.take n_results.toNat
  else
    let st₁ := db_names.foldl
      (fun st db =>
        match ranked.filter (fun r => srcKey r = db) with
        | [] => st
        | r :: _ => addOne st r)
      ([], [])
    let st₂ := fillByRank n_results.toNat st₁ ranked
    st₂.2.take n_results.toNat

/-- Flattening of `for _db_name, _results in db_results.items():
all_results.extend(_results)` (the single-database merge path). -/
def flattenValues (db_results : List (String × List SearchResult)) : List SearchResult :=
  (db_results.map (fun p => p.2)).flatten

/-- Search-round merge: the multi-database path interleaves round-robin,
the single-database path concatenates the dict values. -/
def mergeRound (db_names : List String)
    (db_results : List (String × List SearchResult)) : List SearchResult :=
  if 1 < db_names.length then _merge_results_multi_db db_results db_names
  else flattenValues db_results

/-- The zero-result fallback block of `fetch_structures_from_db`
(core/server.py): when the first round produced nothing and the correction
oracle supplied an element-only filter (`relaxedRound = some dbResults2`,
abstracting both the oracle and the second network round; `none` covers an
oracle failure, an empty element list, and an exception in the relaxed
search, all of which leave the state untouched), the merged relaxed
results replace `all_results`, and `fallback_level` becomes 1 only when
they are nonempty. -/
def fallbackStage (db_names : List String) (all_results : List SearchResult)
    (relaxedRound : Option (List (String × List SearchResult))) :
    List SearchResult × Nat :=
  if all_results.length = 0 then
    match relaxedRound with
    | none => (all_results, 0)
    | some dbResults2 =>
      let merged := mergeRound db_names dbResults2
      if 0 < merged.length then (merged, 1) else (merged, 0)
  else (all_results, 0)

/-- The highest degradation level `fetch_structures_from_db` can report:
the code assigns `fallback_level` only the values 0 (initial attempt) and
1 (element-only relaxed retry). -/
def MAX_FALLBACK_LEVEL : Nat := 1

/-- Filter arguments handed to the ranker (formula, space group, elements,
keywords), abstracting the preprocessed filter dict. -/
structure RankArgs where
  formula : String
  space_group : String
  elements : List String
  keywords : List String
deriving Repr

/-- Subset of the tool response relevant to the verified claims (the
`build_response` fields of mrdice_server/schema.py plus the `code` and
`message` keys added by `resp.update`). -/
structure ToolResponse where
  n_found : Nat
  returned : Nat
  fallback_level : Nat
  query_used : String
  results : List SearchResult
  code : Int
  message : String
deriving Repr, DecidableEq

/-- Python truthiness test of the error map:
`any(str(v or "").strip() for v in errors.values())`. -/
def hasBlockingError (errors : List (String × String)) : Bool :=
  errors.any (fun kv => pyStrip kv.2 ≠ "")

/-- The `code` field of the final `resp.update` in
`fetch_structures_from_db`. -/
def responseCode (nFound : Nat) (errors : List (String × String)) : Int :=
  if 0 < nFound ∧ ¬hasBlockingError errors then 0
  else if 0 < nFound then 1
  else if errors = [] then -9999 else -9998

/-- The `message` field of the final `resp.update`. -/
def responseMessage (nFound : Nat) (errors : List (String × String)) : String :=
  if 0 < nFound ∧ ¬hasBlockingError errors then "Success"
  else if 0 < nFound then "Partial success (see errors)"
  else if errors = [] then "No results" else "No results (see errors)"

/-- Shallow embedding of `fetch_structures_from_db` (core/server.py) on
the plain (no element-set options) path.  External effects are explicit
parameters: `expandedQuery` and `args0` come from the preprocessor,
`firstRound` is the first parallel fan-out (results dict), `relaxedRound`
and `args1` describe the element-only rescue round (see `fallbackStage`),
and `errors` is the accumulated per-source error map.  The empty-query
guard returns before any of them is consulted. -/
def fetch_structures_from_db (query : String) (n_results : Int)
    (db_names : List String) (expandedQuery : String) (args0 args1 : RankArgs)
    (firstRound : List (String × List SearchResult))
    (relaxedRound : Option (List (String × List SearchResult)))
    (errors : List (String × String)) : ToolResponse :=
  if pyStrip query = "" then
    { n_found := 0, returned := 0, fallback_level := 0, query_used := ""
      results := [], code := -1, message := "Empty query" }
  else
    let all₀ := mergeRound db_names firstRound
    let fb := fallbackStage db_names all₀ relaxedRound
    let all_results := fb.1
    let fallback_level := fb.2
    let args := if fallback_level = 1 then args1 else args0
    let ranked := rank_results all_results args.formula args.space_group
      args.elements args.keywords
    let final :=
      if 1 < db_names.length then
        _take_n_results_with_sources ranked n_results db_names
      else ranked.take n_results.toNat
    { n_found := all_results.length
      returned := final.length
      fallback_level := fallback_level
      query_used := expandedQuery
      results := final
      code := responseCode all_results.length errors
      message := responseMessage all_results.length errors }

/-! ## Fair quota allocator
(mrdice_server/database/optimade_database/optimade_test/utils.py,
`distribute_quota_fair`).

`stats` is a dict from clause (provider) name to a dict from URL to its
observed capacity; both dicts preserve insertion order and have distinct
keys, so they are modelled as lists.  Because every lookup the algorithm
performs is through keys enumerated from these same dicts, the embedding
tracks positions and carries the names only for the output shape. -/

/-- One input clause of `distribute_quota_fair`: its name and its URLs
with capacities, in insertion order. -/
structure ClauseIn where
  name : String
  urls : List (String × Nat)
deriving Repr, DecidableEq

/-- Clause capacity: `sum(stats[c].values())`. -/
def clauseCap (c : ClauseIn) : Nat := (c.urls.map (fun u => u.2)).sum

/-- Total capacity of the table. -/
def totalCapacity (stats : List ClauseIn) : Nat := (stats.map clauseCap).sum

/-- Step 1 of the allocator: each clause with positive capacity receives,
in order, the target `min(capacity, base + (1 if idx < rem else 0))`,
where `idx` counts only the active clauses; inactive clauses get 0. -/
def clauseTargetsGo (base rem : Nat) : Nat → List ClauseIn → List Nat
  | _, [] => []
  | idx, c :: rest =>
    if 0 < clauseCap c then
      min (clauseCap c) (base + (if idx < rem then 1 else 0))
        :: clauseTargetsGo base rem (idx + 1) rest
    else
      0 :: clauseTargetsGo base rem idx rest

/-- Equal split across the URLs of one clause:
`want = base_url + (1 if ui < rem_url else 0); give = min(want, cap)`. -/
def equalSplitGo (base rem : Nat) : Nat → List Nat → List Nat
  | _, [] => []
  | ui, cap :: rest =>
    min (base + (if ui < rem then 1 else 0)) cap :: equalSplitGo base rem (ui + 1) rest

/-- One full cycle `ui = 0 .. n_urls - 1` of the intra-clause water-fill
loop, over (assigned, residual) pairs: while `left` lasts, each URL with
positive residual receives one unit. -/
def intraRound : List (Nat × Nat) → Nat → List (Nat × Nat) × Nat
  | [], left => ([], left)
  | (a, r) :: rest, left =>
    if 0 < left ∧ 0 < r then
      let res := intraRound rest (left - 1)
      ((a + 1, r - 1) :: res.1, res.2)
    else
      let res := intraRound rest left
      ((a, r) :: res.1, res.2)

/-- The intra-clause `while left > 0 and any(r > 0 ...)` loop.  Each
productive cycle consumes at least one unit of `left`, so running the
cycle with structural fuel initialised to `left` reproduces the loop
exactly (when the fuel is spent, `left` is already 0). -/
def intraFill : Nat → List (Nat × Nat) → Nat → List (Nat × Nat)
  | 0, pairs, _ => pairs
  | fuel + 1, pairs, left =>
    if left = 0 ∨ pairs.all (fun p => p.2 = 0) then pairs
    else
      let res := intraRound pairs left
      if res.2 < left then intraFill fuel res.1 res.2 else pairs

/-- Step 2 of the allocator for one clause: equal split across URLs capped
by URL capacity, then intra-clause water-fill of the shortfall. -/
def intraAlloc (caps : List Nat) (quota : Nat) : List Nat :=
  let nUrls := caps.length
  let base := quota / nUrls
  let rem := quota % nUrls
  let assigned := equalSplitGo base rem 0 caps
  let left := quota - assigned.sum
  if 0 < left then
    let pairs := (assigned.zip caps).map (fun p => (p.1, p.2 - p.1))
    let filled := intraFill left pairs left
    filled.map (fun p => p.1)
  else assigned

/-- Per-clause state during step 3: the clause name, its URL names,
capacities and current assignment (positionally), the residual list
`[url, residual]` built from positive residuals in URL order (URLs are
identified by their position), and the round-robin cursor
`next_url_idx`. -/
structure CState where
  name : String
  urlNames : List String
  caps : List Nat
  assigned : List Nat
  residual : List (Nat × Nat)
  rr : Nat
deriving Repr

/-- Current total of a clause (the `totals[c]` counter; the code keeps it
equal to `sum(assigned)` by updating both together). -/
def ctotal (c : CState) : Nat := c.assigned.sum

/-- `residual_urls[c]` as built after step 2: the URLs (by position) whose
capacity exceeds their assignment, with that residual. -/
def mkResiduals (caps assigned : List Nat) : List (Nat × Nat) :=
  ((List.range caps.length).map
    (fun i => (i, caps.getD i 0 - assigned.getD i 0))).filter (fun p => 0 < p.2)

/-- Build the step-3 state of one clause: inactive clauses (target 0,
`if quota_c <= 0: continue`) keep an all-zero assignment. -/
def mkState (c : ClauseIn) (target : Nat) : CState :=
  let caps := c.urls.map (fun u => u.2)
  let assigned := if 0 < target then intraAlloc caps target
    else List.replicate caps.length 0
  { name := c.name
    urlNames := c.urls.map (fun u => u.1)
    caps := caps
    assigned := assigned
    residual := mkResiduals caps assigned
    rr := 0 }

/-- `give_one_to_clause`: pick the residual entry at the round-robin
cursor, grant one unit to that URL, and either drop the entry (residual
exhausted) or decrement it and advance the cursor.  Returns the clause
unchanged when its residual list is empty (the Python helper returns
`False` there; callers guard on membership in `residual_urls`). -/
def giveOne (c : CState) : CState :=
  if c.residual = [] then c
  else
    let len := c.residual.length
    let idx := c.rr % len
    let entry := c.residual.getD idx (0, 0)
    let assigned := c.assigned.set entry.1 (c.assigned.getD entry.1 0 + 1)
    if entry.2 - 1 = 0 then
      let urls := c.residual.eraseIdx idx
      { c with
          assigned := assigned
          residual := urls
          rr := if urls = [] then 0 else idx % urls.length }
    else
      { c with
          assigned := assigned
          residual := c.residual.set idx (entry.1, entry.2 - 1)
          rr := (idx + 1) % len }

/-- Minimum current total over the clauses that still have residual URLs
(`min(totals[c] for c in candidates)`); `none` when there are no
candidates. -/
def minTotalAux : List CState → Option Nat
  | [] => none
  | c :: rest =>
    let m := minTotalAux rest
    if c.residual = [] then m
    else
      match m with
      | none => some (ctotal c)
      | some v => some (min (ctotal c) v)

/-- One pass of the clause-level water-fill
(`for c in active_clauses: ...`): stop when the budget is spent, skip
clauses without residual URLs, and grant one unit to every clause whose
current total equals the minimum computed at the start of the pass. -/
def passGo (m : Nat) : List CState → Nat → List CState × Nat
  | [], remaining => ([], remaining)
  | c :: rest, remaining =>
    if remaining = 0 then (c :: rest, 0)
    else if c.residual ≠ [] ∧ ctotal c = m then
      let res := passGo m rest (remaining - 1)
      (giveOne c :: res.1, res.2)
    else
      let res := passGo m rest remaining
      (c :: res.1, res.2)

/-- The outer `while remaining > 0 and residual_urls` loop.  A pass that
grants nothing (`progressed = False`, i.e. the budget did not shrink)
breaks the loop.  Every continuing pass consumes at least one unit, so
structural fuel initialised to `remaining` reproduces the loop exactly. -/
def waterfill : Nat → List CState → Nat → List CState
  | 0, st, _ => st
  | fuel + 1, st, remaining =>
    match minTotalAux st with
    | none => st
    | some m =>
      if remaining = 0 then st
      else
        let res := passGo m st remaining
        if res.2 < remaining then waterfill fuel res.1 res.2 else res.1

/-- `distribute_quota_fair`: strict two-level max-min fair allocation of
`n_results` across clauses and their URLs, bounded by observed
capacities.  Returns the quota plan in the insertion order of `stats`. -/
def distribute_quota_fair (stats : List ClauseIn) (n_results : Int) :
    List (String × List (String × Nat)) :=
  if stats = [] ∨ n_results ≤ 0 then []
  else
    let n := n_results.toNat
    let nActive := (stats.filter (fun c => 0 < clauseCap c)).length
    if nActive = 0 then
      stats.map (fun c => (c.name, c.urls.map (fun u => (u.1, 0))))
    else
      let base := n / nActive
      let rem := n % nActive
      let targets := clauseTargetsGo base rem 0 stats
      let states := stats.zipWith mkState targets
      let remaining := n - (states.map ctotal).sum
      let final := if 0 < remaining then waterfill remaining states remaining
        else states
      final.map (fun c => (c.name, c.urlNames.zip c.assigned))

/-- Sum of all quotas of a plan. -/
def planSum (plan : List (String × List (String × Nat))) : Nat :=
  (plan.map (fun c => (c.2.map (fun u => u.2)).sum)).sum

/-- Well-formedness of a capacity table: it models Python dicts, so clause
names are distinct and the URL names inside each clause are distinct. -/
def StatsWF (stats : List ClauseIn) : Prop :=
  (stats.map (fun c => c.name)).Nodup ∧
    ∀ c ∈ stats, (c.urls.map (fun u => u.1)).Nodup

/-- Invariant tying a step-3 clause state together: the assignment is
pointwise bounded by the capacities, and the residual list holds exactly
the URLs with remaining headroom, each once, with its exact residual. -/
def CInv (s : CState) : Prop :=
  s.assigned.length = s.caps.length ∧
    (∀ i, s.assigned.getD i 0 ≤ s.caps.getD i 0) ∧
    (∀ p ∈ s.residual, p.1 < s.caps.length ∧
      p.2 = s.caps.getD p.1 0 - s.assigned.getD p.1 0 ∧ 0 < p.2) ∧
    (s.residual.map (fun p => p.1)).Nodup ∧
    ∀ i, i < s.caps.length → s.assigned.getD i 0 < s.caps.getD i 0 →
      i ∈ s.residual.map (fun p => p.1)

/-- Fields of a clause state that step 3 never modifies, relative to the
input clause. -/
def ShapeOf (c : ClauseIn) (s : CState) : Prop :=
  s.name = c.name ∧ s.urlNames = c.urls.map (fun u => u.1) ∧
    s.caps = c.urls.map (fun u => u.2)

/-! ## Helper lemmas: dict operations -/

theorem dictGet_dictSet_self {β : Type} (d : List (String × β)) (k : String) (v : β) :
    dictGet (dictSet d k v) k = some v := by
  induction d with
  | nil => simp [dictSet, dictGet, List.find?]
  | cons p rest ih =>
    by_cases h : p.1 = k
    · simp [dictSet, h, dictGet, List.find?]
    · simpa [dictSet, h, dictGet, List.find?] using ih

theorem dictGet_dictSet_ne {β : Type} (d : List (String × β)) (k k₁ : String) (v : β)
    (h : k ≠ k₁) : dictGet (dictSet d k v) k₁ = dictGet d k₁ := by
  induction d with
  | nil =>
    simp only [dictSet, dictGet]
    rw [List.find?_cons_of_neg _ (by simp [h])]
  | cons p rest ih =>
    obtain ⟨pk, pv⟩ := p
    by_cases hp : pk = k
    · subst hp
      have hset : dictSet ((pk, pv) :: rest) pk v = (pk, v) :: rest := by
        simp [dictSet]
      rw [hset]
      simp only [dictGet]
      rw [List.find?_cons_of_neg _ (by simp [h]), List.find?_cons_of_neg _ (by simp [h])]
    · by_cases hpk : pk = k₁
      · simp only [dictSet, if_neg hp, dictGet]
        rw [List.find?_cons_of_pos _ (by simp [hpk]), List.find?_cons_of_pos _ (by simp [hpk])]
      · simp only [dictSet, if_neg hp, dictGet]
        rw [List.find?_cons_of_neg _ (by simp [hpk]), List.find?_cons_of_neg _ (by simp [hpk])]
        exact ih

theorem search_databases_parallel_with_errors_eq_fold (fetch : FetchBehavior)
    (db_names : List String) (h : db_names ≠ []) :
    search_databases_parallel_with_errors fetch db_names =
      (db_names.map (_search_single_db fetch)).foldl gatherStep ([], []) := by
  simp only [search_databases_parallel_with_errors, if_neg h]
  rfl

theorem _search_single_db_fst (fetch : FetchBehavior) (db : String) :
    (_search_single_db fetch db).1 = db := by
  unfold _search_single_db
  by_cases h : db ∈ ALL_DATABASE_NAMES
  · simp only [if_pos h]
    cases fetch db <;> rfl
  · simp [if_neg h]

theorem gatherStep_fst (acc : List (String × List SearchResult) × List (String × String))
    (item : String × List SearchResult × Option String) :
    (gatherStep acc item).1 = dictSet acc.1 item.1 item.2.1 := rfl

theorem gatherStep_snd_none (acc : List (String × List SearchResult) × List (String × String))
    (nm : String) (rs : List SearchResult) :
    (gatherStep acc (nm, rs, none)).2 = acc.2 := rfl

theorem gatherStep_snd_some (acc : List (String × List SearchResult) × List (String × String))
    (nm : String) (rs : List SearchResult) (e : String) :
    (gatherStep acc (nm, rs, some e)).2 = dictSet acc.2 nm e := rfl

theorem gatherStep_snd_preserve
    (acc : List (String × List SearchResult) × List (String × String))
    (item : String × List SearchResult × Option String) (b : String) (hb : item.1 ≠ b) :
    dictGet (gatherStep acc item).2 b = dictGet acc.2 b := by
  obtain ⟨nm, rs, err⟩ := item
  cases err with
  | none => rfl
  | some e =>
    rw [gatherStep_snd_some]
    exact dictGet_dictSet_ne _ _ _ _ hb

theorem gatherFold_preserve (fetch : FetchBehavior) (names : List String)
    (init : List (String × List SearchResult) × List (String × String)) (b : String)
    (hb : b ∉ names) :
    dictGet ((names.map (_search_single_db fetch)).foldl gatherStep init).1 b
        = dictGet init.1 b ∧
      dictGet ((names.map (_search_single_db fetch)).foldl gatherStep init).2 b
        = dictGet init.2 b := by
  induction names generalizing init with
  | nil => exact ⟨rfl, rfl⟩
  | cons c rest ih =>
    have hbc : b ≠ c := fun hc => hb (hc ▸ List.mem_cons_self c rest)
    have hbr : b ∉ rest := fun hr => hb (List.mem_cons_of_mem c hr)
    simp only [List.map_cons, List.foldl_cons]
    obtain ⟨i1, i2⟩ := ih (gatherStep init (_search_single_db fetch c)) hbr
    refine ⟨i1.trans ?_, i2.trans ?_⟩
    · rw [gatherStep_fst, _search_single_db_fst, dictGet_dictSet_ne _ _ _ _ (Ne.symm hbc)]
    · refine gatherStep_snd_preserve _ _ _ ?_
      rw [_search_single_db_fst]
      exact Ne.symm hbc

theorem gatherFold_lookup (fetch : FetchBehavior) (names : List String)
    (init : List (String × List SearchResult) × List (String × String)) (b : String)
    (hnd : names.Nodup) (hb : b ∈ names) :
    dictGet ((names.map (_search_single_db fetch)).foldl gatherStep init).1 b
        = some (_search_single_db fetch b).2.1 ∧
      dictGet ((names.map (_search_single_db fetch)).foldl gatherStep init).2 b
        = (match (_search_single_db fetch b).2.2 with
            | some e => some e
            | none => dictGet init.2 b) := by
  induction names generalizing init with
  | nil => cases hb
  | cons c rest ih =>
    simp only [List.map_cons, List.foldl_cons]
    rcases List.mem_cons.mp hb with hbc | hbr
    · subst hbc
      have hbrest : b ∉ rest := (List.nodup_cons.mp hnd).1
      obtain ⟨h1, h2⟩ := gatherFold_preserve fetch rest
        (gatherStep init (_search_single_db fetch b)) b hbrest
      refine ⟨h1.trans ?_, h2.trans ?_⟩
      · rw [gatherStep_fst, _search_single_db_fst, dictGet_dictSet_self]
      · have hfst := _search_single_db_fst fetch b
        cases hcase : (_search_single_db fetch b).2.2 with
        | none =>
          have he : _search_single_db fetch b
              = ((_search_single_db fetch b).1, (_search_single_db fetch b).2.1,
                  (_search_single_db fetch b).2.2) := rfl
          rw [hfst, hcase] at he
          rw [he, gatherStep_snd_none]
        | some e =>
          have he : _search_single_db fetch b
              = ((_search_single_db fetch b).1, (_search_single_db fetch b).2.1,
                  (_search_single_db fetch b).2.2) := rfl
          rw [hfst, hcase] at he
          rw [he, gatherStep_snd_some, dictGet_dictSet_self]
    · have hbc : b ≠ c := fun hc => ((List.nodup_cons.mp hnd).1 (hc ▸ hbr)).elim
      obtain ⟨i1, i2⟩ := ih (gatherStep init (_search_single_db fetch c)) (List.nodup_cons.mp hnd).2 hbr
      refine ⟨i1, i2.trans ?_⟩
      cases hcase : (_search_single_db fetch b).2.2 with
      | some e => rfl
      | none =>
        simp only []
        refine gatherStep_snd_preserve _ _ _ ?_
        rw [_search_single_db_fst]
        exact Ne.symm hbc

/-- C2: per-source failure isolation of the parallel fan-out.  A source
whose retriever raises is mapped to an empty result list and to an
error-map entry holding its message; every source whose retriever
succeeds keeps its results and gets no error entry.  The call itself is a
total function of the retriever outcomes, so no exception escapes it. -/
theorem C2_fanout_isolation (fetch : FetchBehavior) (db_names : List String)
    (a : String) (msg : String)
    (hnd : db_names.Nodup) (ha : a ∈ db_names) (haA : a ∈ ALL_DATABASE_NAMES)
    (hfa : fetch a = .error msg) :
    dictGet (search_databases_parallel_with_errors fetch db_names).1 a = some [] ∧
      dictGet (search_databases_parallel_with_errors fetch db_names).2 a = some msg ∧
      ∀ b ∈ db_names, b ∈ ALL_DATABASE_NAMES → ∀ rs,
        fetch b = .ok rs →
          dictGet (search_databases_parallel_with_errors fetch db_names).1 b = some rs ∧
            dictGet (search_databases_parallel_with_errors fetch db_names).2 b = none := by
  have hne : db_names ≠ [] := fun h => by simp [h] at ha
  rw [search_databases_parallel_with_errors_eq_fold fetch db_names hne]
  have hitem : _search_single_db fetch a = (a, [], some msg) := by
    unfold _search_single_db
    rw [if_pos haA, hfa]
  obtain ⟨h1, h2⟩ := gatherFold_lookup fetch db_names ([], []) a hnd ha
  refine ⟨?_, ?_, ?_⟩
  · rw [h1, hitem]
  · rw [h2, hitem]
  · intro b hb hbA rs hfb
    have hitemb : _search_single_db fetch b = (b, rs, none) := by
      unfold _search_single_db
      rw [if_pos hbA, hfb]
    obtain ⟨g1, g2⟩ := gatherFold_lookup fetch db_names ([], []) b hnd hb
    refine ⟨?_, ?_⟩
    · rw [g1, hitemb]
    · rw [g2, hitemb]
      rfl

/-- Closed witness for `C2_fanout_isolation` at a concrete fan-out:
optimade always fails, openlam returns one record. -/
theorem C2_fanout_isolation_witness :
    dictGet (search_databases_parallel_with_errors
        (fun db => if db = "optimade" then .error "boom" else .ok [emptyResult])
        ["optimade", "openlam"]).1 "optimade" = some [] ∧
      dictGet (search_databases_parallel_with_errors
        (fun db => if db = "optimade" then .error "boom" else .ok [emptyResult])
        ["optimade", "openlam"]).2 "optimade" = some "boom" ∧
      ∀ b ∈ ["optimade", "openlam"], b ∈ ALL_DATABASE_NAMES →
        ∀ rs, (fun db => if db = "optimade" then (.error "boom" : Except String (List SearchResult))
            else .ok [emptyResult]) b = .ok rs →
          dictGet (search_databases_parallel_with_errors
            (fun db => if db = "optimade" then .error "boom" else .ok [emptyResult])
            ["optimade", "openlam"]).1 b = some rs ∧
            dictGet (search_databases_parallel_with_errors
              (fun db => if db = "optimade" then .error "boom" else .ok [emptyResult])
              ["optimade", "openlam"]).2 b = none :=
  C2_fanout_isolation
    (fun db => if db = "optimade" then .error "boom" else .ok [emptyResult])
    ["optimade", "openlam"] "optimade" "boom"
    (by decide) (by decide) (by decide) (by simp)

/-! ## Helper lemmas: dedup -/

theorem dedupFrom_append (seen : List (String × String)) (xs ys : List SearchResult) :
    dedupFrom seen (xs ++ ys) = dedupFrom seen xs ++ dedupFrom (seenAfter seen xs) ys := by
  induction xs generalizing seen with
  | nil => rfl
  | cons r rest ih =>
    by_cases h : dedupKey r ∈ seen
    · simp only [List.cons_append, dedupFrom, seenAfter, if_pos h]
      exact ih seen
    · simp only [List.cons_append, dedupFrom, seenAfter, if_neg h]
      exact congrArg (fun t => r :: t) (ih (dedupKey r :: seen))

theorem mem_seenAfter (seen : List (String × String)) (xs : List SearchResult)
    (k : String × String) (hk : k ∈ seen) : k ∈ seenAfter seen xs := by
  induction xs generalizing seen with
  | nil => exact hk
  | cons r rest ih =>
    by_cases h : dedupKey r ∈ seen
    · simp only [seenAfter, if_pos h]
      exact ih seen hk
    · simp only [seenAfter, if_neg h]
      exact ih _ (List.mem_cons_of_mem _ hk)

theorem key_mem_seenAfter (seen : List (String × String)) (xs : List SearchResult)
    (r : SearchResult) (hr : r ∈ xs) : dedupKey r ∈ seenAfter seen xs := by
  induction xs generalizing seen with
  | nil => cases hr
  | cons x rest ih =>
    rcases List.mem_cons.mp hr with hx | hrest
    · subst hx
      by_cases h : dedupKey r ∈ seen
      · simp only [seenAfter, if_pos h]
        exact mem_seenAfter _ _ _ h
      · simp only [seenAfter, if_neg h]
        exact mem_seenAfter _ _ _ (List.mem_cons_self _ _)
    · by_cases h : dedupKey x ∈ seen
      · simp only [seenAfter, if_pos h]
        exact ih seen hrest
      · simp only [seenAfter, if_neg h]
        exact ih _ hrest

theorem seenAfter_sub (seen : List (String × String)) (xs : List SearchResult)
    (k : String × String) (hk : k ∈ seenAfter seen xs) :
    k ∈ seen ∨ ∃ r ∈ xs, dedupKey r = k := by
  induction xs generalizing seen with
  | nil => exact Or.inl hk
  | cons r rest ih =>
    by_cases h : dedupKey r ∈ seen
    · simp only [seenAfter, if_pos h] at hk
      rcases ih seen hk with h₁ | ⟨r₂, hr₂, hk₂⟩
      · exact Or.inl h₁
      · exact Or.inr ⟨r₂, List.mem_cons_of_mem _ hr₂, hk₂⟩
    · simp only [seenAfter, if_neg h] at hk
      rcases ih _ hk with h₁ | ⟨r₂, hr₂, hk₂⟩
      · rcases List.mem_cons.mp h₁ with he | hs
        · exact Or.inr ⟨r, List.mem_cons_self _ _, he.symm⟩
        · exact Or.inl hs
      · exact Or.inr ⟨r₂, List.mem_cons_of_mem _ hr₂, hk₂⟩

theorem dedupFrom_nil_of_seen (seen : List (String × String)) (ys : List SearchResult)
    (h : ∀ r ∈ ys, dedupKey r ∈ seen) : dedupFrom seen ys = [] := by
  induction ys with
  | nil => rfl
  | cons r rest ih =>
    simp only [dedupFrom, if_pos (h r (List.mem_cons_self _ _))]
    exact ih (fun r₂ hr₂ => h r₂ (List.mem_cons_of_mem _ hr₂))

theorem dedupFrom_pairwise (seen : List (String × String)) (xs : List SearchResult) :
    (dedupFrom seen xs).Pairwise (fun a b => dedupKey a ≠ dedupKey b) ∧
      ∀ r ∈ dedupFrom seen xs, dedupKey r ∉ seen := by
  induction xs generalizing seen with
  | nil => exact ⟨List.Pairwise.nil, by intro r hr; cases hr⟩
  | cons r rest ih =>
    by_cases h : dedupKey r ∈ seen
    · simpa only [dedupFrom, if_pos h] using ih seen
    · simp only [dedupFrom, if_neg h]
      obtain ⟨hp, hd⟩ := ih (dedupKey r :: seen)
      refine ⟨List.pairwise_cons.mpr ⟨?_, hp⟩, ?_⟩
      · intro b hb heq
        exact hd b hb (heq ▸ List.mem_cons_self _ _)
      · intro x hx
        rcases List.mem_cons.mp hx with hx₁ | hx₂
        · exact hx₁ ▸ h
        · intro hmem
          exact hd x hx₂ (List.mem_cons_of_mem _ hmem)

theorem dedupFrom_sublist (seen : List (String × String)) (xs : List SearchResult) :
    List.Sublist (dedupFrom seen xs) xs := by
  induction xs generalizing seen with
  | nil => exact List.Sublist.refl []
  | cons r rest ih =>
    by_cases h : dedupKey r ∈ seen
    · simp only [dedupFrom, if_pos h]
      exact (ih seen).cons r
    · simp only [dedupFrom, if_neg h]
      exact (ih _).cons₂ r

/-- C3: the merge dedup keeps the first occurrence of each identity key
(source, id-or-name) and drops later duplicates, so (i) merging a list
with itself equals merging it once, (ii) no two surviving records share a
key, (iii) survivors appear in input order (a sublist of the input), and
(iv) the first record carrying a given key always survives. -/
theorem C3_dedup_idempotent (l : List SearchResult) :
    dedup_results (l ++ l) = dedup_results l ∧
      (dedup_results l).Pairwise (fun a b => dedupKey a ≠ dedupKey b) ∧
      List.Sublist (dedup_results l) l ∧
      ∀ l₁ r l₂, l = l₁ ++ r :: l₂ →
        (∀ r₂ ∈ l₁, dedupKey r₂ ≠ dedupKey r) → r ∈ dedup_results l := by
  refine ⟨?_, (dedupFrom_pairwise [] l).1, dedupFrom_sublist [] l, ?_⟩
  · unfold dedup_results
    rw [dedupFrom_append]
    rw [dedupFrom_nil_of_seen _ l (fun r hr => key_mem_seenAfter [] l r hr)]
    simp
  · intro l₁ r l₂ hsplit hfst
    unfold dedup_results
    rw [hsplit, dedupFrom_append]
    have hnot : dedupKey r ∉ seenAfter [] l₁ := by
      intro hmem
      rcases seenAfter_sub [] l₁ _ hmem with h₁ | ⟨r₂, hr₂, hk₂⟩
      · cases h₁
      · exact hfst r₂ hr₂ hk₂
    simp only [dedupFrom, if_neg hnot]
    exact List.mem_append_right _ (List.mem_cons_self _ _)

/-- Closed witness for `C3_dedup_idempotent` on a one-record list. -/
theorem C3_dedup_idempotent_witness :
    dedup_results ([emptyResult] ++ [emptyResult]) = dedup_results [emptyResult] ∧
      emptyResult ∈ dedup_results [emptyResult] :=
  ⟨(C3_dedup_idempotent [emptyResult]).1,
    (C3_dedup_idempotent [emptyResult]).2.2.2 [] emptyResult [] rfl (by simp)⟩

/-! ## Claim C5: final selection cap -/

theorem idKey_srcKey_congr (x y : SearchResult) (h : idKey x = idKey y) :
    srcKey x = srcKey y := by
  have hs : x.source = y.source := congrArg (fun t => t.1) h
  unfold srcKey strOr
  rw [hs]

/-- C5: the requested target is a hard cap on the final selection, and
with target 1 and two requested sources both present in the ranked list,
exactly the first-ranked record of the first requested source is
returned. -/
theorem C5_target_hard_cap :
    (∀ (ranked : List SearchResult) (n : Int) (dbs : List String),
        (_take_n_results_with_sources ranked n dbs).length ≤ n.toNat) ∧
      ∀ (ranked : List SearchResult) (a b : String) (ra rb : SearchResult)
        (ta tb : List SearchResult),
        a ≠ b →
        ranked.filter (fun r => srcKey r = a) = ra :: ta →
        ranked.filter (fun r => srcKey r = b) = rb :: tb →
        _take_n_results_with_sources ranked 1 [a, b] = [ra] := by
  constructor
  · intro ranked n dbs
    unfold _take_n_results_with_sources
    by_cases h₁ : ranked = [] ∨ n ≤ 0
    · simp [h₁]
    · rw [if_neg h₁]
      by_cases h₂ : dbs.length ≤ 1
      · rw [if_pos h₂]
        simpa using Nat.min_le_left _ _
      · rw [if_neg h₂]
        simpa using Nat.min_le_left _ _
  · intro ranked a b ra rb ta tb hab hfa hfb
    have hra : srcKey ra = a := by
      have : ra ∈ ranked.filter (fun r => srcKey r = a) := by
        rw [hfa]; exact List.mem_cons_self _ _
      simpa using (List.mem_filter.mp this).2
    have hrb : srcKey rb = b := by
      have : rb ∈ ranked.filter (fun r => srcKey r = b) := by
        rw [hfb]; exact List.mem_cons_self _ _
      simpa using (List.mem_filter.mp this).2
    have hne : ranked ≠ [] := by
      intro h
      rw [h] at hfa
      simp at hfa
    have hkey2 : idKey rb ≠ idKey ra := by
      intro heq
      exact hab ((hra ▸ hrb ▸ idKey_srcKey_congr rb ra heq).symm)
    have hstep1 : addOne ([], []) ra = ([idKey ra], [ra]) := by
      simp [addOne]
    have hstep2 : addOne ([idKey ra], [ra]) rb = ([idKey rb, idKey ra], [ra, rb]) := by
      simp [addOne, hkey2]
    have hfill : ∀ l : List SearchResult,
        fillByRank 1 ([idKey rb, idKey ra], [ra, rb]) l = ([idKey rb, idKey ra], [ra, rb]) := by
      intro l
      cases l with
      | nil => rfl
      | cons x xs => simp [fillByRank]
    unfold _take_n_results_with_sources
    rw [if_neg (by simp [hne]), if_neg (by simp)]
    simp only [List.foldl_cons, List.foldl_nil, hfa, hfb]
    simp only [Int.toNat_one, hstep1, hstep2, hfill]
    rfl

/-- Closed witness for `C5_target_hard_cap`: target 1 over two sources
returns exactly the first-ranked record of the first source. -/
theorem C5_target_hard_cap_witness :
    _take_n_results_with_sources
        [{ emptyResult with source := some "a", id := some "1" },
          { emptyResult with source := some "b", id := some "2" }] 1 ["a", "b"]
      = [{ emptyResult with source := some "a", id := some "1" }] :=
  C5_target_hard_cap.2
    [{ emptyResult with source := some "a", id := some "1" },
      { emptyResult with source := some "b", id := some "2" }]
    "a" "b" { emptyResult with source := some "a", id := some "1" }
    { emptyResult with source := some "b", id := some "2" } [] []
    (by decide) (by decide) (by decide)

/-! ## Claim C10: empty-query guard -/

/-- C10: an empty or whitespace-only query returns immediately with the
constant early-exit response; the result does not depend on any round
outcome (no retriever is consulted). -/
theorem C10_empty_query (query : String) (n_results : Int) (db_names : List String)
    (expandedQuery : String) (args0 args1 : RankArgs)
    (firstRound : List (String × List SearchResult))
    (relaxedRound : Option (List (String × List SearchResult)))
    (errors : List (String × String))
    (h : pyStrip query = "") :
    fetch_structures_from_db query n_results db_names expandedQuery args0 args1
        firstRound relaxedRound errors =
      { n_found := 0, returned := 0, fallback_level := 0, query_used := ""
        results := [], code := -1, message := "Empty query" } := by
  unfold fetch_structures_from_db
  rw [if_pos h]

/-- Closed witness for `C10_empty_query` on a whitespace query. -/
theorem C10_empty_query_witness :
    fetch_structures_from_db "  " 5 ["bohriumpublic"] "q" ⟨"", "", [], []⟩
        ⟨"", "", [], []⟩ [("bohriumpublic", [emptyResult])] none [] =
      { n_found := 0, returned := 0, fallback_level := 0, query_used := ""
        results := [], code := -1, message := "Empty query" } :=
  C10_empty_query "  " 5 ["bohriumpublic"] "q" ⟨"", "", [], []⟩ ⟨"", "", [], []⟩
    [("bohriumpublic", [emptyResult])] none [] (by decide)

/-! ## Claim C9: allocator edge cases -/

/-- Counterexample to the claim that the allocator returns a mapping with
no entries whenever no source has nonzero capacity: on the nonempty
zero-capacity table it returns the zero-filled plan over the same keys,
not the empty mapping. -/
theorem C9_counterexample :
    distribute_quota_fair [⟨"a", [("u", 0)]⟩] 5 = [("a", [("u", 0)])] ∧
      distribute_quota_fair [⟨"a", [("u", 0)]⟩] 5 ≠ [] := by
  constructor
  · rfl
  · intro h
    simp [distribute_quota_fair, clauseCap] at h

/-- C9 (amended): the allocator returns the empty mapping when the target
is nonpositive or the table is empty; when the table is nonempty, the
target positive, and no source has nonzero capacity, it returns the plan
with the same keys and every quota zero. -/
theorem C9_empty_and_zero_plans (stats : List ClauseIn) (n : Int) :
    (n ≤ 0 → distribute_quota_fair stats n = []) ∧
      (stats = [] → distribute_quota_fair stats n = []) ∧
      ((∀ c ∈ stats, clauseCap c = 0) → stats ≠ [] → 0 < n →
        distribute_quota_fair stats n =
          stats.map (fun c => (c.name, c.urls.map (fun u => (u.1, 0))))) := by
  refine ⟨?_, ?_, ?_⟩
  · intro h
    unfold distribute_quota_fair
    rw [if_pos (Or.inr h)]
  · intro h
    unfold distribute_quota_fair
    rw [if_pos (Or.inl h)]
  · intro hz hne hpos
    have hAct : stats.filter (fun c => decide (0 < clauseCap c)) = [] := by
      rw [List.filter_eq_nil_iff]
      intro c hc
      simp [hz c hc]
    unfold distribute_quota_fair
    rw [if_neg (by simp [hne]; omega)]
    simp only [hAct, List.length_nil, if_pos rfl]
    rw [if_pos trivial]

/-- Closed witness for `C9_empty_and_zero_plans` at a concrete table. -/
theorem C9_empty_and_zero_plans_witness :
    distribute_quota_fair [⟨"a", [("u", 0)]⟩] 0 = [] ∧
      distribute_quota_fair ([] : List ClauseIn) 3 = [] ∧
      distribute_quota_fair [⟨"a", [("u", 0)]⟩] 3 = [("a", [("u", 0)])] :=
  ⟨(C9_empty_and_zero_plans [⟨"a", [("u", 0)]⟩] 0).1 (by decide),
    (C9_empty_and_zero_plans [] 3).2.1 rfl,
    (C9_empty_and_zero_plans [⟨"a", [("u", 0)]⟩] 3).2.2
      (by decide) (by decide) (by decide)⟩

/-! ## Claim C4: fallback behaviour of the top-level search -/

/-- Counterexample to the claim that an all-empty search reports
`fallback_level` equal to the maximum degradation level: with both the
strict round and the element-only relaxed round empty, the response has
`results = []` but `fallback_level = 0`, not `MAX_FALLBACK_LEVEL = 1`. -/
theorem C4_counterexample :
    (fetch_structures_from_db "q" 5 ["bohriumpublic"] "q" ⟨"", "", [], []⟩
        ⟨"", "", [], []⟩ [("bohriumpublic", [])]
        (some [("bohriumpublic", [])]) []).results = [] ∧
      (fetch_structures_from_db "q" 5 ["bohriumpublic"] "q" ⟨"", "", [], []⟩
          ⟨"", "", [], []⟩ [("bohriumpublic", [])]
          (some [("bohriumpublic", [])]) []).fallback_level ≠ MAX_FALLBACK_LEVEL := by
  have hq : pyStrip "q" ≠ "" := by decide
  constructor
  · unfold fetch_structures_from_db
    rw [if_neg hq]
    simp [mergeRound, flattenValues, fallbackStage, rank_results,
      _take_n_results_with_sources]
  · unfold fetch_structures_from_db
    rw [if_neg hq]
    simp [mergeRound, flattenValues, fallbackStage, MAX_FALLBACK_LEVEL]

/-- C4 (amended): the top-level search returns normally in every case;
when every degradation level yields zero results the response reports
`results = []`, `n_found = 0` and `fallback_level = 0` (the level counter
advances only when the relaxed retry produces results); when some level
does produce results, `fallback_level` equals the level that produced
them (0 for the strict round, 1 for the relaxed round). -/
theorem C4_fallback_level (query : String) (n_results : Int) (db_names : List String)
    (expandedQuery : String) (args0 args1 : RankArgs)
    (firstRound : List (String × List SearchResult))
    (relaxedRound : Option (List (String × List SearchResult)))
    (errors : List (String × String))
    (hq : pyStrip query ≠ "") :
    (mergeRound db_names firstRound = [] →
        (∀ r2, relaxedRound = some r2 → mergeRound db_names r2 = []) →
        (fetch_structures_from_db query n_results db_names expandedQuery args0 args1
            firstRound relaxedRound errors).results = [] ∧
          (fetch_structures_from_db query n_results db_names expandedQuery args0 args1
              firstRound relaxedRound errors).n_found = 0 ∧
          (fetch_structures_from_db query n_results db_names expandedQuery args0 args1
              firstRound relaxedRound errors).fallback_level = 0) ∧
      (mergeRound db_names firstRound ≠ [] →
        (fetch_structures_from_db query n_results db_names expandedQuery args0 args1
            firstRound relaxedRound errors).fallback_level = 0) ∧
      ∀ r2, relaxedRound = some r2 →
        mergeRound db_names firstRound = [] →
        mergeRound db_names r2 ≠ [] →
        (fetch_structures_from_db query n_results db_names expandedQuery args0 args1
            firstRound relaxedRound errors).fallback_level = 1 := by
  refine ⟨?_, ?_, ?_⟩
  · intro h1 h2
    have hfb : fallbackStage db_names (mergeRound db_names firstRound) relaxedRound
        = ([], 0) := by
      unfold fallbackStage
      rw [h1]
      cases hr : relaxedRound with
      | none => simp
      | some r2 =>
        have := h2 r2 hr
        simp [this]
    unfold fetch_structures_from_db
    rw [if_neg hq]
    refine ⟨?_, ?_, ?_⟩
    · by_cases hlen : 1 < db_names.length <;>
        simp [hfb, hlen, rank_results, _take_n_results_with_sources]
    · simp [hfb]
    · simp [hfb]
  · intro h1
    have hfb : (fallbackStage db_names (mergeRound db_names firstRound) relaxedRound).2
        = 0 := by
      unfold fallbackStage
      rw [if_neg (by simpa using h1)]
    unfold fetch_structures_from_db
    rw [if_neg hq]
    simp only []
    rw [hfb]
  · intro r2 hr h1 h2
    have hfb : (fallbackStage db_names (mergeRound db_names firstRound) relaxedRound).2
        = 1 := by
      unfold fallbackStage
      rw [if_pos (by simp [h1]), hr]
      simp only []
      rw [if_pos (by simpa [Nat.pos_iff_ne_zero, List.length_eq_zero] using h2)]
    unfold fetch_structures_from_db
    rw [if_neg hq]
    simp only []
    rw [hfb]

/-- Closed witness for `C4_fallback_level`: a strict round with one
result reports level 0. -/
theorem C4_fallback_level_witness :
    (fetch_structures_from_db "q" 5 ["bohriumpublic"] "q" ⟨"", "", [], []⟩
        ⟨"", "", [], []⟩ [("bohriumpublic", [emptyResult])] none []).fallback_level
      = 0 :=
  (C4_fallback_level "q" 5 ["bohriumpublic"] "q" ⟨"", "", [], []⟩ ⟨"", "", [], []⟩
      [("bohriumpublic", [emptyResult])] none [] (by decide)).2.1
    (by simp [mergeRound, flattenValues])

/-! ## Claim C8: ranking score and stable descending sort -/

theorem keyword_overlap_countP (kws : List String) (text : String) :
    _keyword_overlap_score kws text =
      kws.countP (fun k => decide (text ≠ "") && pyIn k.toLower text.toLower) := by
  unfold _keyword_overlap_score
  by_cases ht : text = ""
  · subst ht
    simp
  · by_cases hk : kws = []
    · subst hk
      simp
    · rw [if_neg (by simp [ht, hk])]
      rw [List.countP_eq_length_filter]
      congr 1
      apply List.filter_congr
      intro k _
      simp [ht]

theorem count_element_overlap_card (t c : List String) :
    _count_element_overlap t c =
      ((t.filter (fun e => e ≠ "")).toFinset ∩
        (c.filter (fun e => e ≠ "")).toFinset).card := by
  classical
  unfold _count_element_overlap
  have h1 : ((t.filter (fun e => e ≠ "")).dedup.filter
      (fun e => e ∈ c.filter (fun e => e ≠ ""))).Nodup :=
    (List.nodup_dedup _).filter _
  rw [← List.dedup_eq_self.mpr h1, ← List.card_toFinset, List.toFinset_filter]
  congr 1
  ext x
  simp [List.mem_dedup]

theorem descBy_fst_trans (a b c : Nat × SearchResult)
    (h₁ : (fun x y : Nat × SearchResult => decide (y.1 ≤ x.1)) a b)
    (h₂ : (fun x y : Nat × SearchResult => decide (y.1 ≤ x.1)) b c) :
    (fun x y : Nat × SearchResult => decide (y.1 ≤ x.1)) a c := by
  simp only [decide_eq_true_eq] at h₁ h₂ ⊢
  omega

theorem descBy_fst_total (a b : Nat × SearchResult) :
    ((fun x y : Nat × SearchResult => decide (y.1 ≤ x.1)) a b
      || (fun x y : Nat × SearchResult => decide (y.1 ≤ x.1)) b a) = true := by
  simp only [Bool.or_eq_true, decide_eq_true_eq]
  omega

theorem scored_fst_eq (results : List SearchResult)
    (formula space_group : String) (elements keywords : List String)
    (p : Nat × SearchResult)
    (hp : p ∈ results.map
      (fun r => (score_result r formula space_group elements keywords, r))) :
    p.1 = score_result p.2 formula space_group elements keywords := by
  obtain ⟨r, _, rfl⟩ := List.mem_map.mp hp
  rfl

/-- C8: the ranking score decomposes as +2 formula bonus, +2 space-group
bonus, the number of distinct overlapping nonempty requested elements,
and one point per keyword occurring (case-insensitively) in the name and
in the formula; and `rank_results` returns a permutation of its input,
sorted by score descending, preserving the input order of any two records
with equal scores (stability). -/
theorem C8_score_and_stable_sort :
    (∀ (r : SearchResult) (formula space_group : String)
        (elements keywords : List String),
      score_result r formula space_group elements keywords =
        (if formula ≠ "" ∧ r.formula = some formula then 2 else 0)
        + (if space_group ≠ "" ∧ r.space_group = some space_group then 2 else 0)
        + ((elements.filter (fun e => e ≠ "")).toFinset ∩
            (r.elements.filter (fun e => e ≠ "")).toFinset).card
        + keywords.countP (fun k => decide (strOr r.name "" ≠ "")
            && pyIn k.toLower (strOr r.name "").toLower)
        + keywords.countP (fun k => decide (strOr r.formula "" ≠ "")
            && pyIn k.toLower (strOr r.formula "").toLower)) ∧
      (∀ (results : List SearchResult) (formula space_group : String)
          (elements keywords : List String),
        (rank_results results formula space_group elements keywords).Perm results) ∧
      (∀ (results : List SearchResult) (formula space_group : String)
          (elements keywords : List String),
        (rank_results results formula space_group elements keywords).Pairwise
          (fun x y => score_result y formula space_group elements keywords ≤
            score_result x formula space_group elements keywords)) ∧
      ∀ (results : List SearchResult) (formula space_group : String)
        (elements keywords : List String) (x y : SearchResult),
        List.Sublist [x, y] results →
        score_result x formula space_group elements keywords =
          score_result y formula space_group elements keywords →
        List.Sublist [x, y] (rank_results results formula space_group elements keywords) := by
  refine ⟨?_, ?_, ?_, ?_⟩
  · intro r formula space_group elements keywords
    unfold score_result
    rw [count_element_overlap_card, keyword_overlap_countP, keyword_overlap_countP]
  · intro results formula space_group elements keywords
    unfold rank_results
    refine (List.Perm.map _ (List.mergeSort_perm _ _)).trans ?_
    rw [List.map_map]
    simp [Function.comp_def]
  · intro results formula space_group elements keywords
    unfold rank_results
    rw [List.pairwise_map]
    have hs := List.sorted_mergeSort descBy_fst_trans descBy_fst_total
      (results.map (fun r => (score_result r formula space_group elements keywords, r)))
    refine hs.imp_of_mem ?_
    intro a b ha hb hab
    have ha2 := scored_fst_eq results formula space_group elements keywords a
      (List.mem_mergeSort.mp ha)
    have hb2 := scored_fst_eq results formula space_group elements keywords b
      (List.mem_mergeSort.mp hb)
    have := of_decide_eq_true hab
    rw [ha2, hb2] at this
    exact this
  · intro results formula space_group elements keywords x y hsub heq
    unfold rank_results
    have h2 : List.Sublist
        [(score_result x formula space_group elements keywords, x),
          (score_result y formula space_group elements keywords, y)]
        (results.map (fun r => (score_result r formula space_group elements keywords, r))) := by
      have := List.Sublist.map
        (fun r => (score_result r formula space_group elements keywords, r)) hsub
      simpa using this
    have h3 := List.pair_sublist_mergeSort descBy_fst_trans descBy_fst_total
      (by simp [heq]) h2
    have h4 := List.Sublist.map (fun p : Nat × SearchResult => p.2) h3
    simpa using h4

/-- Closed witness for `C8_score_and_stable_sort`: two equal-score records
keep their input order. -/
theorem C8_score_and_stable_sort_witness :
    List.Sublist [emptyResult, { emptyResult with id := some "2" }]
      (rank_results [emptyResult, { emptyResult with id := some "2" }] "" "" [] []) :=
  C8_score_and_stable_sort.2.2.2
    [emptyResult, { emptyResult with id := some "2" }] "" "" [] []
    emptyResult { emptyResult with id := some "2" }
    (List.Sublist.refl _) rfl

/-! ## Helper lemmas: lists indexed by position -/

theorem getD_set_self_nat (l : List Nat) (i v : Nat) (h : i < l.length) :
    (l.set i v).getD i 0 = v := by
  simp [List.getD_eq_getElem?_getD, List.getElem?_set_self h]

theorem getD_set_ne_nat (l : List Nat) (i j v : Nat) (h : i ≠ j) :
    (l.set i v).getD j 0 = l.getD j 0 := by
  simp [List.getD_eq_getElem?_getD, List.getElem?_set_ne h]

theorem sum_set_succ (l : List Nat) (i : Nat) (h : i < l.length) :
    (l.set i (l.getD i 0 + 1)).sum = l.sum + 1 := by
  induction l generalizing i with
  | nil => simp at h
  | cons x xs ih =>
    cases i with
    | zero => simp [List.getD_cons_zero]; omega
    | succ n =>
      have hn : n < xs.length := by simpa using h
      have := ih n hn
      simp only [List.getD_cons_succ, List.set_cons_succ, List.sum_cons]
      omega

/-! ## Helper lemmas: step 1 and step 2 of the allocator -/

theorem equalSplitGo_length (base rem : Nat) (caps : List Nat) : ∀ i : Nat,
    (equalSplitGo base rem i caps).length = caps.length := by
  induction caps with
  | nil => intro i; rfl
  | cons cap rest ih =>
    intro i
    simp [equalSplitGo, ih (i + 1)]

theorem equalSplitGo_le (base rem : Nat) (caps : List Nat) : ∀ i : Nat,
    List.Forall₂ (fun a cap => a ≤ cap) (equalSplitGo base rem i caps) caps := by
  induction caps with
  | nil => intro i; exact List.Forall₂.nil
  | cons cap rest ih =>
    intro i
    exact List.Forall₂.cons (Nat.min_le_right _ _) (ih (i + 1))

theorem equalSplitGo_sum_le (base rem : Nat) (caps : List Nat) : ∀ i : Nat,
    (equalSplitGo base rem i caps).sum ≤ caps.length * base + (rem - i) := by
  induction caps with
  | nil => intro i; simp [equalSplitGo]
  | cons cap rest ih =>
    intro i
    have h := ih (i + 1)
    simp only [equalSplitGo, List.sum_cons, List.length_cons]
    have hmin : min (base + (if i < rem then 1 else 0)) cap
        ≤ base + (if i < rem then 1 else 0) := Nat.min_le_left _ _
    rw [Nat.succ_mul]
    by_cases hir : i < rem
    · simp only [if_pos hir] at hmin ⊢
      omega
    · simp only [if_neg hir] at hmin ⊢
      omega

theorem intraRound_spec (pairs : List (Nat × Nat)) : ∀ left : Nat,
    (intraRound pairs left).2 ≤ left ∧
      List.Forall₂ (fun p q : Nat × Nat =>
          q.1 + q.2 = p.1 + p.2 ∧ p.1 ≤ q.1 ∧ q.2 ≤ p.2)
        pairs (intraRound pairs left).1 ∧
      ((intraRound pairs left).1.map (fun p => p.1)).sum + (intraRound pairs left).2
        = (pairs.map (fun p => p.1)).sum + left := by
  induction pairs with
  | nil => intro left; exact ⟨Nat.le_refl _, List.Forall₂.nil, rfl⟩
  | cons p rest ih =>
    intro left
    obtain ⟨a, r⟩ := p
    by_cases h : 0 < left ∧ 0 < r
    · obtain ⟨h₁, h₂, h₃⟩ := ih (left - 1)
      simp only [intraRound, if_pos h, List.map_cons, List.sum_cons]
      refine ⟨by omega, List.Forall₂.cons (by omega) h₂, by omega⟩
    · obtain ⟨h₁, h₂, h₃⟩ := ih left
      simp only [intraRound, if_neg h, List.map_cons, List.sum_cons]
      refine ⟨h₁, List.Forall₂.cons (by omega) h₂, by omega⟩

theorem intraRound_progress (pairs : List (Nat × Nat)) : ∀ left : Nat,
    0 < left → (∃ p ∈ pairs, 0 < p.2) → (intraRound pairs left).2 < left := by
  induction pairs with
  | nil =>
    intro left _ hp
    obtain ⟨p, hp, _⟩ := hp
    cases hp
  | cons p rest ih =>
    intro left hl hp
    obtain ⟨a, r⟩ := p
    by_cases h : 0 < left ∧ 0 < r
    · simp only [intraRound, if_pos h]
      have := (intraRound_spec rest (left - 1)).1
      omega
    · have hr : r = 0 := by omega
      simp only [intraRound, if_neg h]
      obtain ⟨q, hq, hq2⟩ := hp
      rcases List.mem_cons.mp hq with hq1 | hqr
      · rw [hq1] at hq2
        simp at hq2
        omega
      · exact ih left hl ⟨q, hqr, hq2⟩

theorem forall₂_R1_trans (a b c : List (Nat × Nat))
    (h₁ : List.Forall₂ (fun p q : Nat × Nat => q.1 + q.2 = p.1 + p.2 ∧ p.1 ≤ q.1) a b)
    (h₂ : List.Forall₂ (fun p q : Nat × Nat => q.1 + q.2 = p.1 + p.2 ∧ p.1 ≤ q.1) b c) :
    List.Forall₂ (fun p q : Nat × Nat => q.1 + q.2 = p.1 + p.2 ∧ p.1 ≤ q.1) a c := by
  induction h₁ generalizing c with
  | nil =>
    cases h₂
    exact List.Forall₂.nil
  | cons hpq htail ih =>
    cases h₂ with
    | cons hqr htail₂ =>
      exact List.Forall₂.cons (by omega) (ih _ htail₂)

theorem forall₂_R1_sum (a b : List (Nat × Nat))
    (h : List.Forall₂ (fun p q : Nat × Nat => q.1 + q.2 = p.1 + p.2 ∧ p.1 ≤ q.1) a b) :
    (b.map (fun p => p.1)).sum + (b.map (fun p => p.2)).sum
      = (a.map (fun p => p.1)).sum + (a.map (fun p => p.2)).sum := by
  induction h with
  | nil => rfl
  | cons hpq htail ih =>
    simp only [List.map_cons, List.sum_cons]
    omega

theorem intraFill_spec : ∀ (fuel : Nat) (pairs : List (Nat × Nat)) (left : Nat),
    left ≤ fuel →
    ((intraFill fuel pairs left).map (fun p => p.1)).sum
        = (pairs.map (fun p => p.1)).sum + min left ((pairs.map (fun p => p.2)).sum) ∧
      List.Forall₂ (fun p q : Nat × Nat => q.1 + q.2 = p.1 + p.2 ∧ p.1 ≤ q.1)
        pairs (intraFill fuel pairs left) := by
  intro fuel
  induction fuel with
  | zero =>
    intro pairs left hle
    have hl : left = 0 := Nat.le_zero.mp hle
    subst hl
    refine ⟨by simp [intraFill], List.forall₂_same.mpr ?_⟩
    intro p hp
    exact ⟨rfl, Nat.le_refl _⟩
  | succ fuel ih =>
    intro pairs left hle
    by_cases hguard : left = 0 ∨ pairs.all (fun p => p.2 = 0)
    · simp only [intraFill, if_pos hguard]
      refine ⟨?_, List.forall₂_same.mpr ?_⟩
      swap
      · intro p hp
        exact ⟨rfl, Nat.le_refl _⟩
      rcases hguard with h0 | hall
      · subst h0
        simp
      · have hs : (pairs.map (fun p => p.2)).sum = 0 := by
          apply List.sum_eq_zero
          intro x hx
          obtain ⟨p, hp, rfl⟩ := List.mem_map.mp hx
          simpa using List.all_eq_true.mp hall p hp
        rw [hs]
        simp
    · have hl0 : left ≠ 0 := fun h => hguard (Or.inl h)
      have hex : ∃ p ∈ pairs, 0 < p.2 := by
        by_contra hno
        push_neg at hno
        refine hguard (Or.inr ?_)
        rw [List.all_eq_true]
        intro p hp
        have := hno p hp
        simpa using by omega
      obtain ⟨hr1, hr2, hr3⟩ := intraRound_spec pairs left
      have hprog := intraRound_progress pairs left (by omega) hex
      have hR1 : List.Forall₂ (fun p q : Nat × Nat => q.1 + q.2 = p.1 + p.2 ∧ p.1 ≤ q.1)
          pairs (intraRound pairs left).1 :=
        List.Forall₂.imp (fun a b h => ⟨h.1, h.2.1⟩) hr2
      have hsum2 := forall₂_R1_sum _ _ hR1
      have hfuel : (intraRound pairs left).2 ≤ fuel := by omega
      obtain ⟨ihsum, ihf⟩ := ih (intraRound pairs left).1 (intraRound pairs left).2 hfuel
      simp only [intraFill, if_neg hguard, if_pos hprog]
      constructor
      · rw [ihsum]
        omega
      · exact forall₂_R1_trans _ _ _ hR1 ihf

theorem zip_sub_sum (a b : List Nat) (h : List.Forall₂ (fun x y => x ≤ y) a b) :
    ((a.zip b).map (fun p => p.2 - p.1)).sum = b.sum - a.sum ∧ a.sum ≤ b.sum := by
  induction h with
  | nil => simp
  | cons hxy hrest ih =>
    simp only [List.zip_cons_cons, List.map_cons, List.sum_cons]
    omega

theorem fill_le_caps (a caps : List Nat) (filled : List (Nat × Nat))
    (h₁ : List.Forall₂ (fun x y => x ≤ y) a caps)
    (h₂ : List.Forall₂ (fun p q : Nat × Nat => q.1 + q.2 = p.1 + p.2 ∧ p.1 ≤ q.1)
      ((a.zip caps).map (fun p => (p.1, p.2 - p.1))) filled) :
    List.Forall₂ (fun x y => x ≤ y) (filled.map (fun p => p.1)) caps := by
  induction h₁ generalizing filled with
  | nil =>
    cases h₂
    exact List.Forall₂.nil
  | cons hxy htail ih =>
    rw [List.zip_cons_cons, List.map_cons] at h₂
    cases h₂ with
    | cons hq htail₂ =>
      refine List.Forall₂.cons ?_ (ih _ htail₂)
      simp only at hq ⊢
      omega

theorem intraAlloc_spec (caps : List Nat) (quota : Nat)
    (hq : 0 < quota) (hle : quota ≤ caps.sum) :
    (intraAlloc caps quota).sum = quota ∧
      List.Forall₂ (fun a cap => a ≤ cap) (intraAlloc caps quota) caps := by
  have hne : caps ≠ [] := by
    intro h
    rw [h] at hle
    simp at hle
    omega
  have hn : 0 < caps.length := List.length_pos.mpr hne
  set n := caps.length with hndef
  set base := quota / n with hbase
  set rem := quota % n with hrem
  have hdm : n * base + rem = quota := Nat.div_add_mod quota n
  have h₀le := equalSplitGo_le base rem caps 0
  have h₀sum : (equalSplitGo base rem 0 caps).sum ≤ quota := by
    have := equalSplitGo_sum_le base rem caps 0
    have hmul : caps.length * base = n * base := by rw [hndef]
    omega
  unfold intraAlloc
  simp only [← hndef, ← hbase, ← hrem]
  set assigned₀ := equalSplitGo base rem 0 caps with ha₀
  by_cases hleft : 0 < quota - assigned₀.sum
  · rw [if_pos hleft]
    set pairs := (assigned₀.zip caps).map (fun p => (p.1, p.2 - p.1)) with hpairs
    have hlen₀ : assigned₀.length = caps.length := equalSplitGo_length base rem caps 0
    have hmapfst : pairs.map (fun p => p.1) = assigned₀ := by
      rw [hpairs, List.map_map]
      have : ((fun p : Nat × Nat => p.1) ∘ fun p : Nat × Nat => (p.1, p.2 - p.1))
          = fun p : Nat × Nat => p.1 := rfl
      rw [this]
      exact List.map_fst_zip assigned₀ caps (Nat.le_of_eq hlen₀)
    have hmapsnd : pairs.map (fun p => p.2) = (assigned₀.zip caps).map (fun p => p.2 - p.1) := by
      rw [hpairs, List.map_map]
      rfl
    obtain ⟨hzs, hzle⟩ := zip_sub_sum assigned₀ caps h₀le
    obtain ⟨hfs, hff⟩ := intraFill_spec (quota - assigned₀.sum) pairs (quota - assigned₀.sum)
      (Nat.le_refl _)
    constructor
    · have hkey : ((intraFill (quota - assigned₀.sum) pairs (quota - assigned₀.sum)).map
          (fun p => p.1)).sum
          = assigned₀.sum + min (quota - assigned₀.sum) (caps.sum - assigned₀.sum) := by
        rw [hfs, hmapfst, hmapsnd, hzs]
      rw [hkey]
      omega
    · exact fill_le_caps assigned₀ caps _ h₀le hff
  · rw [if_neg hleft]
    refine ⟨by omega, h₀le⟩

theorem forall₂_le_getD (a b : List Nat)
    (h : List.Forall₂ (fun x y => x ≤ y) a b) : ∀ i, a.getD i 0 ≤ b.getD i 0 := by
  induction h with
  | nil => intro i; simp
  | cons hxy htail ih =>
    intro i
    cases i with
    | zero => simpa using hxy
    | succ n => simpa using ih n

theorem sum_eq_of_getD_eq (a : List Nat) : ∀ b : List Nat, a.length = b.length →
    (∀ i, a.getD i 0 = b.getD i 0) → a.sum = b.sum := by
  induction a with
  | nil =>
    intro b hlen _
    rw [List.length_nil] at hlen
    rw [(List.length_eq_zero.mp hlen.symm)]
  | cons x xs ih =>
    intro b hlen h
    cases b with
    | nil => simp at hlen
    | cons y ys =>
      have h0 := h 0
      simp only [List.getD_cons_zero] at h0
      have := ih ys (by simpa using hlen) (fun i => by simpa using h (i + 1))
      simp [h0, this]

theorem mkResiduals_mem (caps assigned : List Nat) (p : Nat × Nat) :
    p ∈ mkResiduals caps assigned ↔
      p.1 < caps.length ∧ p.2 = caps.getD p.1 0 - assigned.getD p.1 0 ∧ 0 < p.2 := by
  obtain ⟨u, r⟩ := p
  unfold mkResiduals
  simp only [List.mem_filter, List.mem_map, List.mem_range]
  constructor
  · rintro ⟨⟨i, hi, heq⟩, hp⟩
    injection heq with h1 h2
    subst h1
    subst h2
    exact ⟨hi, rfl, by simpa using hp⟩
  · rintro ⟨h1, h2, h3⟩
    subst h2
    exact ⟨⟨u, h1, rfl⟩, by simpa using h3⟩

theorem mkResiduals_nodup (caps assigned : List Nat) :
    ((mkResiduals caps assigned).map (fun p => p.1)).Nodup := by
  unfold mkResiduals
  have h1 : List.Sublist
      (((List.range caps.length).map
        (fun i => (i, caps.getD i 0 - assigned.getD i 0))).filter (fun p => 0 < p.2))
      ((List.range caps.length).map
        (fun i => (i, caps.getD i 0 - assigned.getD i 0))) :=
    List.filter_sublist _
  have h2 := h1.map (fun p : Nat × Nat => p.1)
  rw [List.map_map] at h2
  have hcomp : ((fun p : Nat × Nat => p.1)
      ∘ fun i => (i, caps.getD i 0 - assigned.getD i 0)) = id := rfl
  rw [hcomp, List.map_id] at h2
  exact (List.nodup_range _).sublist h2

theorem replicate_getD_zero (n i : Nat) : (List.replicate n (0 : Nat)).getD i 0 = 0 := by
  rw [List.getD_eq_getElem?_getD, List.getElem?_replicate]
  by_cases h : i < n <;> simp [h]

theorem mkState_inv (c : ClauseIn) (t : Nat) (ht : t ≤ clauseCap c) :
    CInv (mkState c t) ∧ ctotal (mkState c t) = t ∧ ShapeOf c (mkState c t) := by
  have hcap : clauseCap c = (c.urls.map (fun u => u.2)).sum := rfl
  set caps := c.urls.map (fun u => u.2) with hcaps
  have hassigned :
      (mkState c t).assigned = (if 0 < t then intraAlloc caps t else List.replicate caps.length 0) := rfl
  have hres : (mkState c t).residual = mkResiduals caps (mkState c t).assigned := rfl
  have hcapsf : (mkState c t).caps = caps := rfl
  have hshape : ShapeOf c (mkState c t) := ⟨rfl, rfl, rfl⟩
  have hmain : (mkState c t).assigned.length = caps.length ∧
      (∀ i, (mkState c t).assigned.getD i 0 ≤ caps.getD i 0) ∧
      (mkState c t).assigned.sum = t := by
    rw [hassigned]
    by_cases hpos : 0 < t
    · rw [if_pos hpos]
      obtain ⟨hsum, hf⟩ := intraAlloc_spec caps t hpos (by omega)
      exact ⟨hf.length_eq, forall₂_le_getD _ _ hf, hsum⟩
    · rw [if_neg hpos]
      refine ⟨by simp, ?_, ?_⟩
      · intro i
        rw [replicate_getD_zero]
        exact Nat.zero_le _
      · simp
        omega
  refine ⟨⟨?_, ?_, ?_, ?_, ?_⟩, hmain.2.2, hshape⟩
  · rw [hcapsf]; exact hmain.1
  · rw [hcapsf]; exact hmain.2.1
  · intro p hp
    rw [hres] at hp
    rw [hcapsf]
    exact (mkResiduals_mem caps _ p).mp hp
  · rw [hres]
    exact mkResiduals_nodup _ _
  · intro i hi hlt
    rw [hres]
    rw [hcapsf] at hi hlt
    have : (i, caps.getD i 0 - (mkState c t).assigned.getD i 0)
        ∈ mkResiduals caps (mkState c t).assigned := by
      rw [mkResiduals_mem]
      exact ⟨hi, rfl, by omega⟩
    exact List.mem_map.mpr ⟨_, this, rfl⟩

/-- A clause whose residual list is empty is saturated: every URL has
reached its capacity, so its total equals the clause capacity. -/
theorem residual_empty_full (s : CState) (hinv : CInv s) (h : s.residual = []) :
    ctotal s = s.caps.sum := by
  obtain ⟨hlen, hle, _, _, hcompl⟩ := hinv
  apply sum_eq_of_getD_eq s.assigned s.caps hlen
  intro i
  by_cases hi : i < s.caps.length
  · by_cases hlt : s.assigned.getD i 0 < s.caps.getD i 0
    · have := hcompl i hi hlt
      rw [h] at this
      simp at this
    · have := hle i
      omega
  · have h1 : s.caps.length ≤ i := by omega
    have h2 : s.assigned.length ≤ i := by omega
    rw [List.getD_eq_getElem?_getD, List.getD_eq_getElem?_getD,
      List.getElem?_eq_none h1, List.getElem?_eq_none h2]

theorem giveOne_spec (s : CState) (hinv : CInv s) (hne : s.residual ≠ []) :
    CInv (giveOne s) ∧ ctotal (giveOne s) = ctotal s + 1 ∧
      (giveOne s).caps = s.caps ∧ (giveOne s).name = s.name ∧
      (giveOne s).urlNames = s.urlNames := by
  obtain ⟨hlen, hle, hmem, hnodup, hcompl⟩ := hinv
  have hlenpos : 0 < s.residual.length := List.length_pos.mpr hne
  set idx := s.rr % s.residual.length with hidxdef
  have hidx : idx < s.residual.length := Nat.mod_lt _ hlenpos
  set entry := s.residual.getD idx (0, 0) with hentrydef
  have hentry_get : entry = s.residual[idx] := List.getD_eq_getElem s.residual (0, 0) hidx
  have hmem_entry : entry ∈ s.residual := by
    rw [hentry_get]
    exact List.getElem_mem hidx
  obtain ⟨hu, hr, hrpos⟩ := hmem entry hmem_entry
  have hulen : entry.1 < s.assigned.length := by omega
  have hsplit : s.residual = s.residual.take idx ++ entry :: s.residual.drop (idx + 1) := by
    conv_lhs => rw [← List.take_append_drop idx s.residual]
    rw [List.drop_eq_getElem_cons hidx, ← hentry_get]
  set A := s.residual.take idx with hA
  set B := s.residual.drop (idx + 1) with hB
  have hmapsplit : s.residual.map (fun p => p.1)
      = A.map (fun p => p.1) ++ entry.1 :: B.map (fun p => p.1) := by
    conv_lhs => rw [hsplit]
    simp
  have hnm : entry.1 ∉ A.map (fun p => p.1) ++ B.map (fun p => p.1) ∧
      (A.map (fun p => p.1) ++ B.map (fun p => p.1)).Nodup := by
    have h := hnodup
    rw [hmapsplit] at h
    exact List.nodup_cons.mp (List.nodup_middle.mp h)
  have hABmem : ∀ p : Nat × Nat, p ∈ A ∨ p ∈ B → p ∈ s.residual ∧ p.1 ≠ entry.1 := by
    intro p hp
    constructor
    · rw [hsplit]
      rcases hp with h | h
      · exact List.mem_append_left _ h
      · exact List.mem_append_right _ (List.mem_cons_of_mem _ h)
    · intro hfst
      apply hnm.1
      rcases hp with h | h
      · exact List.mem_append_left _ (List.mem_map.mpr ⟨p, h, hfst⟩)
      · exact List.mem_append_right _ (List.mem_map.mpr ⟨p, h, hfst⟩)
  set asg1 := s.assigned.set entry.1 (s.assigned.getD entry.1 0 + 1) with hasg
  have hs1 : asg1.sum = s.assigned.sum + 1 := sum_set_succ _ _ hulen
  have hlen1 : asg1.length = s.assigned.length := by
    rw [hasg]
    exact List.length_set ..
  have hget_u : asg1.getD entry.1 0 = s.assigned.getD entry.1 0 + 1 :=
    getD_set_self_nat _ _ _ hulen
  have hget_ne : ∀ j, j ≠ entry.1 → asg1.getD j 0 = s.assigned.getD j 0 := by
    intro j hj
    exact getD_set_ne_nat _ _ _ _ (Ne.symm hj)
  have hle_u := hle entry.1
  have hle1 : ∀ i, asg1.getD i 0 ≤ s.caps.getD i 0 := by
    intro i
    by_cases hiu : i = entry.1
    · subst hiu
      rw [hget_u]
      omega
    · rw [hget_ne i hiu]
      exact hle i
  have hgo : giveOne s = if entry.2 - 1 = 0 then
      { s with
          assigned := asg1
          residual := s.residual.eraseIdx idx
          rr := if s.residual.eraseIdx idx = [] then 0
            else idx % (s.residual.eraseIdx idx).length }
    else
      { s with
          assigned := asg1
          residual := s.residual.set idx (entry.1, entry.2 - 1)
          rr := (idx + 1) % s.residual.length } := by
    unfold giveOne
    rw [if_neg hne]
  have herase : s.residual.eraseIdx idx = A ++ B :=
    List.eraseIdx_eq_take_drop_succ s.residual idx
  have hset2 : s.residual.set idx (entry.1, entry.2 - 1)
      = A ++ (entry.1, entry.2 - 1) :: B := by
    rw [List.set_eq_take_append_cons_drop, if_pos hidx]
  by_cases hcase : entry.2 - 1 = 0
  · rw [hgo, if_pos hcase]
    refine ⟨⟨?_, ?_, ?_, ?_, ?_⟩, hs1, rfl, rfl, rfl⟩
    · show asg1.length = s.caps.length
      rw [hlen1, hlen]
    · exact hle1
    · intro p hp
      replace hp : p ∈ A ++ B := by
        rw [← herase]
        exact hp
      obtain ⟨hpmem, hpne⟩ := hABmem p (List.mem_append.mp hp)
      obtain ⟨h1, h2, h3⟩ := hmem p hpmem
      exact ⟨h1, by rw [hget_ne p.1 hpne]; exact h2, h3⟩
    · show ((s.residual.eraseIdx idx).map (fun p => p.1)).Nodup
      rw [herase, List.map_append]
      exact hnm.2
    · intro i hi hlt
      show i ∈ (s.residual.eraseIdx idx).map (fun p => p.1)
      rw [herase, List.map_append]
      replace hlt : asg1.getD i 0 < s.caps.getD i 0 := hlt
      by_cases hiu : i = entry.1
      · subst hiu
        rw [hget_u] at hlt
        exfalso
        omega
      · rw [hget_ne i hiu] at hlt
        have := hcompl i hi hlt
        rw [hmapsplit] at this
        rcases List.mem_append.mp this with h | h
        · exact List.mem_append_left _ h
        · rcases List.mem_cons.mp h with h1 | h2
          · exact absurd h1 hiu
          · exact List.mem_append_right _ h2
  · rw [hgo, if_neg hcase]
    refine ⟨⟨?_, ?_, ?_, ?_, ?_⟩, hs1, rfl, rfl, rfl⟩
    · show asg1.length = s.caps.length
      rw [hlen1, hlen]
    · exact hle1
    · intro p hp
      replace hp : p ∈ A ++ (entry.1, entry.2 - 1) :: B := by
        rw [← hset2]
        exact hp
      rcases List.mem_append.mp hp with h | h
      · obtain ⟨hpmem, hpne⟩ := hABmem p (Or.inl h)
        obtain ⟨h1, h2, h3⟩ := hmem p hpmem
        exact ⟨h1, by rw [hget_ne p.1 hpne]; exact h2, h3⟩
      · rcases List.mem_cons.mp h with h1 | h2
        · subst h1
          refine ⟨hu, ?_, by omega⟩
          show entry.2 - 1 = s.caps.getD entry.1 0 - asg1.getD entry.1 0
          rw [hget_u]
          omega
        · obtain ⟨hpmem, hpne⟩ := hABmem p (Or.inr h2)
          obtain ⟨h1, h2, h3⟩ := hmem p hpmem
          exact ⟨h1, by rw [hget_ne p.1 hpne]; exact h2, h3⟩
    · show ((s.residual.set idx (entry.1, entry.2 - 1)).map (fun p => p.1)).Nodup
      rw [hset2]
      have : (A ++ (entry.1, entry.2 - 1) :: B).map (fun p => p.1)
          = A.map (fun p => p.1) ++ entry.1 :: B.map (fun p => p.1) := by
        simp
      rw [this, ← hmapsplit]
      exact hnodup
    · intro i hi hlt
      show i ∈ (s.residual.set idx (entry.1, entry.2 - 1)).map (fun p => p.1)
      rw [hset2]
      by_cases hiu : i = entry.1
      · subst hiu
        exact List.mem_map.mpr ⟨(entry.1, entry.2 - 1),
          List.mem_append_right _ (List.mem_cons_self _ _), rfl⟩
      · replace hlt : asg1.getD i 0 < s.caps.getD i 0 := hlt
        rw [hget_ne i hiu] at hlt
        have := hcompl i hi hlt
        rw [hmapsplit] at this
        rcases List.mem_append.mp this with h | h
        · exact List.mem_map.mpr (by
            obtain ⟨p, hp, hpe⟩ := List.mem_map.mp h
            exact ⟨p, List.mem_append_left _ hp, hpe⟩)
        · rcases List.mem_cons.mp h with h1 | h2
          · exact absurd h1 hiu
          · exact List.mem_map.mpr (by
              obtain ⟨p, hp, hpe⟩ := List.mem_map.mp h2
              exact ⟨p, List.mem_append_right _ (List.mem_cons_of_mem _ hp), hpe⟩)

theorem minTotalAux_none (st : List CState) :
    minTotalAux st = none ↔ ∀ c ∈ st, c.residual = [] := by
  induction st with
  | nil => simp [minTotalAux]
  | cons c rest ih =>
    simp only [minTotalAux]
    by_cases h : c.residual = []
    · rw [if_pos h]
      constructor
      · intro hn x hx
        rcases List.mem_cons.mp hx with rfl | hxr
        · exact h
        · exact ih.mp hn x hxr
      · intro hall
        exact ih.mpr (fun x hx => hall x (List.mem_cons_of_mem _ hx))
    · rw [if_neg h]
      constructor
      · intro hn
        cases hm : minTotalAux rest <;> rw [hm] at hn <;> simp at hn
      · intro hall
        exact absurd (hall c (List.mem_cons_self _ _)) h

theorem minTotalAux_attained (st : List CState) : ∀ m : Nat,
    minTotalAux st = some m → ∃ c ∈ st, c.residual ≠ [] ∧ ctotal c = m := by
  induction st with
  | nil => intro m h; simp [minTotalAux] at h
  | cons c rest ih =>
    intro m h
    simp only [minTotalAux] at h
    by_cases hc : c.residual = []
    · rw [if_pos hc] at h
      obtain ⟨x, hx, hxr, hxm⟩ := ih m h
      exact ⟨x, List.mem_cons_of_mem _ hx, hxr, hxm⟩
    · rw [if_neg hc] at h
      cases hrest : minTotalAux rest with
      | none =>
        rw [hrest] at h
        simp only [Option.some.injEq] at h
        exact ⟨c, List.mem_cons_self _ _, hc, h⟩
      | some v =>
        rw [hrest] at h
        simp only [Option.some.injEq] at h
        by_cases hcv : ctotal c ≤ v
        · exact ⟨c, List.mem_cons_self _ _, hc, by omega⟩
        · obtain ⟨x, hx, hxr, hxm⟩ := ih v hrest
          exact ⟨x, List.mem_cons_of_mem _ hx, hxr, by omega⟩

theorem passGo_le (m : Nat) (st : List CState) : ∀ remaining : Nat,
    (passGo m st remaining).2 ≤ remaining := by
  induction st with
  | nil => intro remaining; exact Nat.le_refl _
  | cons c rest ih =>
    intro remaining
    by_cases h0 : remaining = 0
    · subst h0
      simp [passGo]
    · by_cases hg : c.residual ≠ [] ∧ ctotal c = m
      · simp only [passGo, if_neg h0, if_pos hg]
        have := ih (remaining - 1)
        omega
      · simp only [passGo, if_neg h0, if_neg hg]
        exact ih remaining

theorem passGo_progress (m : Nat) (st : List CState) : ∀ remaining : Nat,
    0 < remaining → (∃ c ∈ st, c.residual ≠ [] ∧ ctotal c = m) →
    (passGo m st remaining).2 < remaining := by
  induction st with
  | nil =>
    intro remaining _ hw
    obtain ⟨c, hc, _⟩ := hw
    cases hc
  | cons c rest ih =>
    intro remaining h0 hw
    have h0ne : remaining ≠ 0 := by omega
    by_cases hg : c.residual ≠ [] ∧ ctotal c = m
    · simp only [passGo, if_neg h0ne, if_pos hg]
      have := passGo_le m rest (remaining - 1)
      omega
    · simp only [passGo, if_neg h0ne, if_neg hg]
      obtain ⟨x, hx, hxr, hxm⟩ := hw
      rcases List.mem_cons.mp hx with rfl | hxrest
      · exact absurd ⟨hxr, hxm⟩ hg
      · exact ih remaining h0 ⟨x, hxrest, hxr, hxm⟩

theorem passGo_spec (m : Nat) (st : List CState) : ∀ remaining : Nat,
    (∀ c ∈ st, CInv c) →
    (∀ c ∈ (passGo m st remaining).1, CInv c) ∧
      List.Forall₂ (fun c c₂ : CState => c₂.caps = c.caps ∧ c₂.name = c.name ∧
        c₂.urlNames = c.urlNames) st (passGo m st remaining).1 ∧
      ((passGo m st remaining).1.map ctotal).sum + (passGo m st remaining).2
        = (st.map ctotal).sum + remaining := by
  induction st with
  | nil =>
    intro remaining _
    exact ⟨by simp [passGo], List.Forall₂.nil, rfl⟩
  | cons c rest ih =>
    intro remaining hinv
    have hinvc := hinv c (List.mem_cons_self _ _)
    have hinvr : ∀ x ∈ rest, CInv x := fun x hx => hinv x (List.mem_cons_of_mem _ hx)
    by_cases h0 : remaining = 0
    · subst h0
      simp only [passGo, if_pos rfl]
      refine ⟨hinv, List.forall₂_same.mpr ?_, by simp⟩
      intro x hx
      exact ⟨rfl, rfl, rfl⟩
    · by_cases hg : c.residual ≠ [] ∧ ctotal c = m
      · obtain ⟨gInv, gTot, gCaps, gName, gUrl⟩ := giveOne_spec c hinvc hg.1
        obtain ⟨i1, i2, i3⟩ := ih (remaining - 1) hinvr
        simp only [passGo, if_neg h0, if_pos hg]
        refine ⟨?_, List.Forall₂.cons ⟨gCaps, gName, gUrl⟩ i2, ?_⟩
        · intro x hx
          rcases List.mem_cons.mp hx with rfl | hxr
          · exact gInv
          · exact i1 x hxr
        · simp only [List.map_cons, List.sum_cons]
          have hle := passGo_le m rest (remaining - 1)
          omega
      · obtain ⟨i1, i2, i3⟩ := ih remaining hinvr
        simp only [passGo, if_neg h0, if_neg hg]
        refine ⟨?_, List.Forall₂.cons ⟨rfl, rfl, rfl⟩ i2, ?_⟩
        · intro x hx
          rcases List.mem_cons.mp hx with rfl | hxr
          · exact hinvc
          · exact i1 x hxr
        · simp only [List.map_cons, List.sum_cons]
          omega

theorem forall₂_shape_trans (a b c : List CState)
    (h₁ : List.Forall₂ (fun c c₂ : CState => c₂.caps = c.caps ∧ c₂.name = c.name ∧
      c₂.urlNames = c.urlNames) a b)
    (h₂ : List.Forall₂ (fun c c₂ : CState => c₂.caps = c.caps ∧ c₂.name = c.name ∧
      c₂.urlNames = c.urlNames) b c) :
    List.Forall₂ (fun c c₂ : CState => c₂.caps = c.caps ∧ c₂.name = c.name ∧
      c₂.urlNames = c.urlNames) a c := by
  induction h₁ generalizing c with
  | nil =>
    cases h₂
    exact List.Forall₂.nil
  | cons hpq htail ih =>
    cases h₂ with
    | cons hqr htail₂ =>
      refine List.Forall₂.cons ⟨?_, ?_, ?_⟩ (ih _ htail₂)
      · rw [hqr.1, hpq.1]
      · rw [hqr.2.1, hpq.2.1]
      · rw [hqr.2.2, hpq.2.2]

theorem waterfill_spec : ∀ (fuel : Nat) (st : List CState) (remaining : Nat),
    remaining ≤ fuel → (∀ c ∈ st, CInv c) →
    (∀ c ∈ waterfill fuel st remaining, CInv c) ∧
      List.Forall₂ (fun c c₂ : CState => c₂.caps = c.caps ∧ c₂.name = c.name ∧
        c₂.urlNames = c.urlNames) st (waterfill fuel st remaining) ∧
      ((waterfill fuel st remaining).map ctotal).sum ≤ (st.map ctotal).sum + remaining ∧
      (((waterfill fuel st remaining).map ctotal).sum = (st.map ctotal).sum + remaining ∨
        ∀ c ∈ waterfill fuel st remaining, c.residual = []) := by
  intro fuel
  induction fuel with
  | zero =>
    intro st remaining hle hinv
    have h0 : remaining = 0 := by omega
    subst h0
    simp only [waterfill]
    refine ⟨hinv, List.forall₂_same.mpr ?_, by omega, Or.inl (by omega)⟩
    intro x hx
    exact ⟨rfl, rfl, rfl⟩
  | succ fuel ih =>
    intro st remaining hle hinv
    cases hmt : minTotalAux st with
    | none =>
      simp only [waterfill, hmt]
      refine ⟨hinv, List.forall₂_same.mpr ?_, by omega,
        Or.inr (minTotalAux_none st |>.mp hmt)⟩
      intro x hx
      exact ⟨rfl, rfl, rfl⟩
    | some m =>
      simp only [waterfill, hmt]
      by_cases h0 : remaining = 0
      · rw [if_pos h0]
        refine ⟨hinv, List.forall₂_same.mpr ?_, by omega, Or.inl (by omega)⟩
        intro x hx
        exact ⟨rfl, rfl, rfl⟩
      · rw [if_neg h0]
        have hw := minTotalAux_attained st m hmt
        have hprog := passGo_progress m st remaining (by omega) hw
        rw [if_pos hprog]
        obtain ⟨p1, p2, p3⟩ := passGo_spec m st remaining hinv
        have hfuel2 : (passGo m st remaining).2 ≤ fuel := by omega
        obtain ⟨w1, w2, w3, w4⟩ := ih (passGo m st remaining).1 (passGo m st remaining).2
          hfuel2 p1
        refine ⟨w1, forall₂_shape_trans _ _ _ p2 w2, by omega, ?_⟩
        rcases w4 with he | hr
        · exact Or.inl (by omega)
        · exact Or.inr hr

theorem clauseTargetsGo_length (base rem : Nat) (stats : List ClauseIn) : ∀ idx : Nat,
    (clauseTargetsGo base rem idx stats).length = stats.length := by
  induction stats with
  | nil => intro idx; rfl
  | cons c rest ih =>
    intro idx
    by_cases h : 0 < clauseCap c
    · simp [clauseTargetsGo, if_pos h, ih (idx + 1)]
    · simp [clauseTargetsGo, if_neg h, ih idx]

theorem clauseTargetsGo_forall₂ (base rem : Nat) (stats : List ClauseIn) : ∀ idx : Nat,
    List.Forall₂ (fun t c => t ≤ clauseCap c) (clauseTargetsGo base rem idx stats) stats := by
  induction stats with
  | nil => intro idx; exact List.Forall₂.nil
  | cons c rest ih =>
    intro idx
    by_cases h : 0 < clauseCap c
    · simp only [clauseTargetsGo, if_pos h]
      exact List.Forall₂.cons (Nat.min_le_left _ _) (ih (idx + 1))
    · simp only [clauseTargetsGo, if_neg h]
      exact List.Forall₂.cons (Nat.zero_le _) (ih idx)

theorem clauseTargetsGo_sum_le (base rem : Nat) (stats : List ClauseIn) : ∀ idx : Nat,
    (clauseTargetsGo base rem idx stats).sum
      ≤ (stats.filter (fun c => decide (0 < clauseCap c))).length * base + (rem - idx) := by
  induction stats with
  | nil => intro idx; simp [clauseTargetsGo]
  | cons c rest ih =>
    intro idx
    by_cases h : 0 < clauseCap c
    · have htail := ih (idx + 1)
      have hfc : List.filter (fun c => decide (0 < clauseCap c)) (c :: rest)
          = c :: List.filter (fun c => decide (0 < clauseCap c)) rest := by
        simp [List.filter_cons, h]
      simp only [clauseTargetsGo, if_pos h, List.sum_cons, hfc, List.length_cons]
      have hmin : min (clauseCap c) (base + (if idx < rem then 1 else 0))
          ≤ base + (if idx < rem then 1 else 0) := Nat.min_le_right _ _
      rw [Nat.succ_mul]
      by_cases hir : idx < rem
      · simp only [if_pos hir] at hmin ⊢
        omega
      · simp only [if_neg hir] at hmin ⊢
        omega
    · have htail := ih idx
      have hfc : List.filter (fun c => decide (0 < clauseCap c)) (c :: rest)
          = List.filter (fun c => decide (0 < clauseCap c)) rest := by
        simp [List.filter_cons, h]
      simp only [clauseTargetsGo, if_neg h, List.sum_cons, hfc]
      omega

theorem forall₂_targets_sum_le (targets : List Nat) (stats : List ClauseIn)
    (h : List.Forall₂ (fun t c => t ≤ clauseCap c) targets stats) :
    targets.sum ≤ totalCapacity stats := by
  unfold totalCapacity
  induction h with
  | nil => simp
  | cons hxy htail ih =>
    simp only [List.sum_cons, List.map_cons]
    omega

theorem map_ctotal_zipWith (stats : List ClauseIn) : ∀ targets : List Nat,
    List.Forall₂ (fun t c => t ≤ clauseCap c) targets stats →
    (stats.zipWith mkState targets).map ctotal = targets := by
  intro targets h
  induction h with
  | nil => rfl
  | cons hxy htail ih =>
    simp only [List.zipWith_cons_cons, List.map_cons]
    rw [(mkState_inv _ _ hxy).2.1, ih]

theorem states_inv (stats : List ClauseIn) : ∀ targets : List Nat,
    List.Forall₂ (fun t c => t ≤ clauseCap c) targets stats →
    (∀ s ∈ stats.zipWith mkState targets, CInv s) ∧
      List.Forall₂ ShapeOf stats (stats.zipWith mkState targets) := by
  intro targets h
  induction h with
  | nil => exact ⟨by simp, List.Forall₂.nil⟩
  | cons hxy htail ih =>
    obtain ⟨hall, hshape⟩ := ih
    obtain ⟨hinv, _, hsh⟩ := mkState_inv _ _ hxy
    refine ⟨?_, List.Forall₂.cons hsh hshape⟩
    intro s hs
    rw [List.zipWith_cons_cons] at hs
    rcases List.mem_cons.mp hs with rfl | hsr
    · exact hinv
    · exact hall s hsr

theorem forall₂_shapeOf_trans (stats : List ClauseIn) (b c : List CState)
    (h₁ : List.Forall₂ ShapeOf stats b)
    (h₂ : List.Forall₂ (fun c c₂ : CState => c₂.caps = c.caps ∧ c₂.name = c.name ∧
      c₂.urlNames = c.urlNames) b c) :
    List.Forall₂ ShapeOf stats c := by
  induction h₁ generalizing c with
  | nil =>
    cases h₂
    exact List.Forall₂.nil
  | cons hpq htail ih =>
    cases h₂ with
    | cons hqr htail₂ =>
      refine List.Forall₂.cons ⟨?_, ?_, ?_⟩ (ih _ htail₂)
      · rw [hqr.2.1, hpq.1]
      · rw [hqr.2.2, hpq.2.1]
      · rw [hqr.1, hpq.2.2]

theorem sum_le_of_getD_le (a : List Nat) : ∀ b : List Nat, a.length = b.length →
    (∀ i, a.getD i 0 ≤ b.getD i 0) → a.sum ≤ b.sum := by
  induction a with
  | nil => intro b _ _; simp
  | cons x xs ih =>
    intro b hlen h
    cases b with
    | nil => simp at hlen
    | cons y ys =>
      have h0 := h 0
      simp only [List.getD_cons_zero] at h0
      have := ih ys (by simpa using hlen) (fun i => by simpa using h (i + 1))
      simp only [List.sum_cons]
      omega

theorem ctotal_le_caps_sum (s : CState) (hinv : CInv s) : ctotal s ≤ s.caps.sum :=
  sum_le_of_getD_le s.assigned s.caps hinv.1 hinv.2.1

theorem planSum_output (stats : List ClauseIn) : ∀ final : List CState,
    List.Forall₂ ShapeOf stats final → (∀ s ∈ final, CInv s) →
    planSum (final.map (fun c => (c.name, c.urlNames.zip c.assigned)))
      = (final.map ctotal).sum := by
  intro final hshape hinv
  induction hshape with
  | nil => rfl
  | cons hsh htail ih =>
    rename_i c s stats₂ final₂
    have hinvs := hinv s (List.mem_cons_self _ _)
    have hlen : s.assigned.length ≤ s.urlNames.length := by
      have h1 : s.urlNames.length = c.urls.length := by
        rw [hsh.2.1, List.length_map]
      have h2 : s.caps.length = c.urls.length := by
        rw [hsh.2.2, List.length_map]
      have h3 := hinvs.1
      omega
    have hzip : (s.urlNames.zip s.assigned).map (fun u => u.2) = s.assigned := by
      have : (s.urlNames.zip s.assigned).map (fun u : String × Nat => u.2)
          = (s.urlNames.zip s.assigned).map Prod.snd := rfl
      rw [this]
      exact List.map_snd_zip _ _ hlen
    simp only [List.map_cons, planSum, List.sum_cons] at ih ⊢
    rw [hzip]
    have ihh := ih (fun x hx => hinv x (List.mem_cons_of_mem _ hx))
    unfold planSum at ihh
    have hct : ctotal s = s.assigned.sum := rfl
    omega

theorem caps_sum_of_shape (stats : List ClauseIn) : ∀ final : List CState,
    List.Forall₂ ShapeOf stats final →
    (final.map (fun s => s.caps.sum)).sum = totalCapacity stats := by
  intro final hshape
  unfold totalCapacity
  induction hshape with
  | nil => rfl
  | cons hsh htail ih =>
    simp only [List.map_cons, List.sum_cons]
    rw [ih, hsh.2.2]
    rfl

/-- C1: allocation conservation.  For every capacity table and every
target K ≥ 0, the quota plan of `distribute_quota_fair` sums to exactly
`min K (total capacity)`: the whole budget is spent when capacity
suffices, and never more than the total capacity is allocated. -/
theorem C1_allocation_conservation (stats : List ClauseIn) (n_results : Int)
    (hn : 0 ≤ n_results) :
    planSum (distribute_quota_fair stats n_results)
      = min n_results.toNat (totalCapacity stats) := by
  by_cases hguard : stats = [] ∨ n_results ≤ 0
  · unfold distribute_quota_fair
    rw [if_pos hguard]
    rcases hguard with h | h
    · subst h
      simp [planSum, totalCapacity]
    · have h0 : n_results = 0 := le_antisymm h hn
      subst h0
      simp [planSum]
  · unfold distribute_quota_fair
    rw [if_neg hguard]
    push_neg at hguard
    obtain ⟨hne, hpos⟩ := hguard
    by_cases hact : (stats.filter (fun c => decide (0 < clauseCap c))).length = 0
    · rw [if_pos hact]
      have hfilter : stats.filter (fun c => decide (0 < clauseCap c)) = [] :=
        List.length_eq_zero.mp hact
      have hzero : totalCapacity stats = 0 := by
        unfold totalCapacity
        apply List.sum_eq_zero
        intro x hx
        obtain ⟨c, hc, rfl⟩ := List.mem_map.mp hx
        have := List.filter_eq_nil_iff.mp hfilter c hc
        simpa using this
      rw [hzero]
      simp only [Nat.min_zero]
      unfold planSum
      rw [List.map_map]
      apply List.sum_eq_zero
      intro x hx
      obtain ⟨c, hc, rfl⟩ := List.mem_map.mp hx
      show ((c.urls.map (fun u => (u.1, 0))).map (fun u => u.2)).sum = 0
      rw [List.map_map]
      apply List.sum_eq_zero
      intro y hy
      obtain ⟨u, hu, rfl⟩ := List.mem_map.mp hy
      rfl
    · rw [if_neg hact]
      have hT2 := clauseTargetsGo_forall₂ (n_results.toNat /
          (stats.filter (fun c => decide (0 < clauseCap c))).length)
        (n_results.toNat % (stats.filter (fun c => decide (0 < clauseCap c))).length)
        stats 0
      have hTsum : (clauseTargetsGo (n_results.toNat /
            (stats.filter (fun c => decide (0 < clauseCap c))).length)
          (n_results.toNat % (stats.filter (fun c => decide (0 < clauseCap c))).length)
          0 stats).sum ≤ n_results.toNat := by
        have h1 := clauseTargetsGo_sum_le (n_results.toNat /
            (stats.filter (fun c => decide (0 < clauseCap c))).length)
          (n_results.toNat % (stats.filter (fun c => decide (0 < clauseCap c))).length)
          stats 0
        have h2 := Nat.div_add_mod n_results.toNat
          (stats.filter (fun c => decide (0 < clauseCap c))).length
        omega
      set targets := clauseTargetsGo (n_results.toNat /
          (stats.filter (fun c => decide (0 < clauseCap c))).length)
        (n_results.toNat % (stats.filter (fun c => decide (0 < clauseCap c))).length)
        0 stats with htargets
      have hTcap : targets.sum ≤ totalCapacity stats := forall₂_targets_sum_le _ _ hT2
      obtain ⟨hinvS, hshapeS⟩ := states_inv stats targets hT2
      have hmapct : (stats.zipWith mkState targets).map ctotal = targets :=
        map_ctotal_zipWith stats targets hT2
      set states := stats.zipWith mkState targets with hstates
      show planSum ((if 0 < n_results.toNat - (states.map ctotal).sum
          then waterfill (n_results.toNat - (states.map ctotal).sum) states
            (n_results.toNat - (states.map ctotal).sum)
          else states).map (fun c => (c.name, c.urlNames.zip c.assigned)))
        = min n_results.toNat (totalCapacity stats)
      rw [hmapct]
      by_cases hrem : 0 < n_results.toNat - targets.sum
      · rw [if_pos hrem]
        obtain ⟨w1, w2, w3, w4⟩ := waterfill_spec (n_results.toNat - targets.sum) states
          (n_results.toNat - targets.sum) (Nat.le_refl _) hinvS
        rw [hmapct] at w3 w4
        have hshapeF := forall₂_shapeOf_trans stats states _ hshapeS w2
        rw [planSum_output stats _ hshapeF w1]
        have hcapsum := caps_sum_of_shape stats _ hshapeF
        have hlecaps : ((waterfill (n_results.toNat - targets.sum) states
            (n_results.toNat - targets.sum)).map ctotal).sum
            ≤ ((waterfill (n_results.toNat - targets.sum) states
              (n_results.toNat - targets.sum)).map (fun s => s.caps.sum)).sum := by
          apply List.sum_le_sum
          intro s hs
          exact ctotal_le_caps_sum s (w1 s hs)
        rcases w4 with he | hr
        · omega
        · have heq : ((waterfill (n_results.toNat - targets.sum) states
              (n_results.toNat - targets.sum)).map ctotal).sum = totalCapacity stats := by
            rw [← hcapsum]
            congr 1
            apply List.map_congr_left
            intro s hs
            exact residual_empty_full s (w1 s hs) (hr s hs)
          omega
      · rw [if_neg hrem]
        rw [planSum_output stats states hshapeS hinvS, hmapct]
        omega

/-- Closed witness for `C1_allocation_conservation` on a concrete table. -/
theorem C1_allocation_conservation_witness :
    planSum (distribute_quota_fair
        [⟨"a", [("u1", 1), ("u2", 4)]⟩, ⟨"b", [("u1", 9)]⟩] 9)
      = min (Int.toNat 9)
          (totalCapacity [⟨"a", [("u1", 1), ("u2", 4)]⟩, ⟨"b", [("u1", 9)]⟩]) :=
  C1_allocation_conservation
    [⟨"a", [("u1", 1), ("u2", 4)]⟩, ⟨"b", [("u1", 9)]⟩] 9 (by decide)

theorem forall₂_getElem? {α β : Type} {R : α → β → Prop} :
    ∀ (a : List α) (b : List β), List.Forall₂ R a b → ∀ (i : Nat) (y : β),
      b[i]? = some y → ∃ x, a[i]? = some x ∧ R x y := by
  intro a b h
  induction h with
  | nil =>
    intro i y hy
    simp at hy
  | cons hxy htail ih =>
    intro i y hy
    cases i with
    | zero =>
      simp only [List.getElem?_cons_zero, Option.some.injEq] at hy ⊢
      exact ⟨_, rfl, hy ▸ hxy⟩
    | succ n =>
      simp only [List.getElem?_cons_succ] at hy ⊢
      exact ih n y hy

theorem plan_entry_bound (stats : List ClauseIn) (final : List CState)
    (hshape : List.Forall₂ ShapeOf stats final) (hinv : ∀ s ∈ final, CInv s) :
    ∀ (i : Nat) (cn : String) (us : List (String × Nat)),
      (final.map (fun c => (c.name, c.urlNames.zip c.assigned)))[i]? = some (cn, us) →
      ∃ c : ClauseIn, stats[i]? = some c ∧ cn = c.name ∧
        ∀ (j : Nat) (un : String) (q : Nat), us[j]? = some (un, q) →
          ∃ cap : Nat, c.urls[j]? = some (un, cap) ∧ q ≤ cap := by
  intro i cn us hplan
  rw [List.getElem?_map] at hplan
  cases hfo : final[i]? with
  | none =>
    rw [hfo] at hplan
    simp at hplan
  | some s =>
    rw [hfo] at hplan
    simp only [Option.map_some', Option.some.injEq, Prod.mk.injEq] at hplan
    have hcn : cn = s.name := hplan.1.symm
    have hus : us = s.urlNames.zip s.assigned := hplan.2.symm
    obtain ⟨c, hc, hRs⟩ := forall₂_getElem? stats final hshape i s hfo
    obtain ⟨hname, hurl, hcaps⟩ := hRs
    have hsmem : s ∈ final := by
      have := List.getElem?_eq_some_iff.mp hfo
      obtain ⟨hlt, hget⟩ := this
      rw [← hget]
      exact List.getElem_mem hlt
    obtain ⟨hlen, hle, _, _, _⟩ := hinv s hsmem
    refine ⟨c, hc, by rw [hcn, hname], ?_⟩
    intro j un q hus2
    rw [hus] at hus2
    obtain ⟨h1, h2⟩ := List.getElem?_zip_eq_some.mp hus2
    have hURL : (c.urls.map (fun u => u.1))[j]? = some un := by
      rw [← hurl]
      exact h1
    rw [List.getElem?_map] at hURL
    cases huj : c.urls[j]? with
    | none =>
      rw [huj] at hURL
      simp at hURL
    | some u =>
      rw [huj] at hURL
      simp only [Option.map_some', Option.some.injEq] at hURL
      refine ⟨u.2, ?_, ?_⟩
      · have hueta : (un, u.2) = u := by
          rw [← hURL]
        rw [hueta]
      · have hcap : s.caps[j]? = some u.2 := by
          rw [hcaps, List.getElem?_map, huj]
          rfl
        have hq : s.assigned.getD j 0 = q := by
          rw [List.getD_eq_getElem?_getD, h2]
          rfl
        have hcapd : s.caps.getD j 0 = u.2 := by
          rw [List.getD_eq_getElem?_getD, hcap]
          rfl
        have := hle j
        omega

/-- C6: every (source, sub-resource) entry of the quota plan carries an
integer quota between 0 and that same entry's capacity in the input
table (quotas are naturals, so 0 ≤ q holds by construction); in
particular the cross-source water-filling step never pushes a
sub-resource past its individual capacity. -/
theorem C6_quota_within_capacity (stats : List ClauseIn) (n_results : Int) :
    ∀ (i : Nat) (cn : String) (us : List (String × Nat)),
      (distribute_quota_fair stats n_results)[i]? = some (cn, us) →
      ∃ c : ClauseIn, stats[i]? = some c ∧ cn = c.name ∧
        ∀ (j : Nat) (un : String) (q : Nat), us[j]? = some (un, q) →
          ∃ cap : Nat, c.urls[j]? = some (un, cap) ∧ q ≤ cap := by
  by_cases hguard : stats = [] ∨ n_results ≤ 0
  · intro i cn us hplan
    unfold distribute_quota_fair at hplan
    rw [if_pos hguard] at hplan
    simp at hplan
  · unfold distribute_quota_fair
    rw [if_neg hguard]
    by_cases hact : (stats.filter (fun c => decide (0 < clauseCap c))).length = 0
    · rw [if_pos hact]
      intro i cn us hplan
      rw [List.getElem?_map] at hplan
      cases hco : stats[i]? with
      | none =>
        rw [hco] at hplan
        simp at hplan
      | some c =>
        rw [hco] at hplan
        simp only [Option.map_some', Option.some.injEq, Prod.mk.injEq] at hplan
        refine ⟨c, rfl, hplan.1.symm, ?_⟩
        intro j un q hus
        rw [← hplan.2] at hus
        rw [List.getElem?_map] at hus
        cases huj : c.urls[j]? with
        | none =>
          rw [huj] at hus
          simp at hus
        | some u =>
          rw [huj] at hus
          simp only [Option.map_some', Option.some.injEq] at hus
          rw [Prod.mk.injEq] at hus
          refine ⟨u.2, ?_, ?_⟩
          · have hueta : (un, u.2) = u := by
              rw [← hus.1]
            rw [hueta]
          · have h2 : (0 : Nat) = q := hus.2
            omega
    · rw [if_neg hact]
      have hT2 := clauseTargetsGo_forall₂ (n_results.toNat /
          (stats.filter (fun c => decide (0 < clauseCap c))).length)
        (n_results.toNat % (stats.filter (fun c => decide (0 < clauseCap c))).length)
        stats 0
      set targets := clauseTargetsGo (n_results.toNat /
          (stats.filter (fun c => decide (0 < clauseCap c))).length)
        (n_results.toNat % (stats.filter (fun c => decide (0 < clauseCap c))).length)
        0 stats with htargets
      obtain ⟨hinvS, hshapeS⟩ := states_inv stats targets hT2
      set states := stats.zipWith mkState targets with hstates
      show ∀ (i : Nat) (cn : String) (us : List (String × Nat)),
        ((if 0 < n_results.toNat - (states.map ctotal).sum
            then waterfill (n_results.toNat - (states.map ctotal).sum) states
              (n_results.toNat - (states.map ctotal).sum)
            else states).map (fun c => (c.name, c.urlNames.zip c.assigned)))[i]?
          = some (cn, us) → _
      by_cases hrem : 0 < n_results.toNat - (states.map ctotal).sum
      · rw [if_pos hrem]
        obtain ⟨w1, w2, _, _⟩ := waterfill_spec (n_results.toNat - (states.map ctotal).sum)
          states (n_results.toNat - (states.map ctotal).sum) (Nat.le_refl _) hinvS
        exact plan_entry_bound stats _ (forall₂_shapeOf_trans stats states _ hshapeS w2) w1
      · rw [if_neg hrem]
        exact plan_entry_bound stats states hshapeS hinvS

/-- Closed witness for `C6_quota_within_capacity` at a concrete table and
entry. -/
theorem C6_quota_within_capacity_witness :
    ∃ c : ClauseIn, [(⟨"a", [("u", 2)]⟩ : ClauseIn)][0]? = some c ∧ "a" = c.name ∧
      ∀ (j : Nat) (un : String) (q : Nat),
        ((distribute_quota_fair [⟨"a", [("u", 2)]⟩] 5)[0]? >>= fun p => p.2[j]?)
          = some (un, q) → ∃ cap : Nat, c.urls[j]? = some (un, cap) ∧ q ≤ cap := by
  obtain ⟨c, hc, hn, hall⟩ := C6_quota_within_capacity [⟨"a", [("u", 2)]⟩] 5 0 "a" [("u", 2)] rfl
  refine ⟨c, hc, hn, ?_⟩
  intro j un q hj
  apply hall
  simpa using hj

theorem state_entry_sum (c : ClauseIn) (s : CState) (hsh : ShapeOf c s) (hinv : CInv s) :
    ((s.urlNames.zip s.assigned).map (fun u => u.2)).sum = ctotal s := by
  have hlen : s.assigned.length ≤ s.urlNames.length := by
    have e1 : s.urlNames.length = c.urls.length := by
      rw [hsh.2.1, List.length_map]
    have e2 : s.caps.length = c.urls.length := by
      rw [hsh.2.2, List.length_map]
    have e3 := hinv.1
    omega
  have hsnd : (s.urlNames.zip s.assigned).map (fun u : String × Nat => u.2)
      = (s.urlNames.zip s.assigned).map Prod.snd := rfl
  rw [hsnd, List.map_snd_zip _ _ hlen]
  rfl

/-- C7: for every two-source capacity table in which each capacity is at
least K / 2 (expressed integrally as K ≤ 2 · capacity), the per-source
totals of the allocated plan differ by at most 1. -/
theorem C7_two_source_fairness (c₁ c₂ : ClauseIn) (n_results : Int)
    (hn : 0 ≤ n_results)
    (h₁ : n_results.toNat ≤ 2 * clauseCap c₁)
    (h₂ : n_results.toNat ≤ 2 * clauseCap c₂) :
    (((distribute_quota_fair [c₁, c₂] n_results).getD 0 ("", [])).2.map
        (fun u => u.2)).sum
      ≤ (((distribute_quota_fair [c₁, c₂] n_results).getD 1 ("", [])).2.map
          (fun u => u.2)).sum + 1 ∧
    (((distribute_quota_fair [c₁, c₂] n_results).getD 1 ("", [])).2.map
        (fun u => u.2)).sum
      ≤ (((distribute_quota_fair [c₁, c₂] n_results).getD 0 ("", [])).2.map
          (fun u => u.2)).sum + 1 := by
  by_cases hzero : n_results ≤ 0
  · have hplan : distribute_quota_fair [c₁, c₂] n_results = [] := by
      unfold distribute_quota_fair
      rw [if_pos (Or.inr hzero)]
    rw [hplan]
    simp
  · have hK : 0 < n_results.toNat := by omega
    have hc₁ : 0 < clauseCap c₁ := by omega
    have hc₂ : 0 < clauseCap c₂ := by omega
    have hmod : n_results.toNat % 2 < 2 := Nat.mod_lt _ (by omega)
    have hdm := Nat.div_add_mod n_results.toNat 2
    have hfl : ([c₁, c₂] : List ClauseIn).filter (fun c => decide (0 < clauseCap c))
        = [c₁, c₂] := by
      simp [List.filter_cons, hc₁, hc₂]
    have ht₁m : min (clauseCap c₁)
        (n_results.toNat / 2 + if 0 < n_results.toNat % 2 then 1 else 0)
        = n_results.toNat / 2 + n_results.toNat % 2 := by
      by_cases h : 0 < n_results.toNat % 2
      · rw [if_pos h]
        omega
      · rw [if_neg h]
        omega
    have ht₂m : min (clauseCap c₂)
        (n_results.toNat / 2 + if 1 < n_results.toNat % 2 then 1 else 0)
        = n_results.toNat / 2 := by
      rw [if_neg (by omega)]
      omega
    have htargets : clauseTargetsGo (n_results.toNat / 2) (n_results.toNat % 2) 0 [c₁, c₂]
        = [n_results.toNat / 2 + n_results.toNat % 2, n_results.toNat / 2] := by
      simp only [clauseTargetsGo, if_pos hc₁, if_pos hc₂]
      rw [ht₁m, ht₂m]
    have hT2 : List.Forall₂ (fun t c => t ≤ clauseCap c)
        [n_results.toNat / 2 + n_results.toNat % 2, n_results.toNat / 2] [c₁, c₂] :=
      List.Forall₂.cons (by omega) (List.Forall₂.cons (by omega) List.Forall₂.nil)
    obtain ⟨hi₁, hts₁, hsh₁⟩ := mkState_inv c₁ (n_results.toNat / 2 + n_results.toNat % 2)
      (by omega)
    obtain ⟨hi₂, hts₂, hsh₂⟩ := mkState_inv c₂ (n_results.toNat / 2) (by omega)
    unfold distribute_quota_fair
    rw [if_neg (show ¬(([c₁, c₂] : List ClauseIn) = [] ∨ n_results ≤ 0) by
      simp [hzero])]
    simp only []
    rw [hfl]
    rw [show ([c₁, c₂] : List ClauseIn).length = 2 from rfl]
    rw [if_neg (by simp)]
    rw [htargets]
    rw [map_ctotal_zipWith [c₁, c₂]
      [n_results.toNat / 2 + n_results.toNat % 2, n_results.toNat / 2] hT2]
    rw [List.sum_cons, List.sum_cons, List.sum_nil]
    rw [show n_results.toNat - (n_results.toNat / 2 + n_results.toNat % 2
      + (n_results.toNat / 2 + 0)) = 0 from by omega]
    rw [if_neg (by omega)]
    rw [show ([c₁, c₂].zipWith mkState
        [n_results.toNat / 2 + n_results.toNat % 2, n_results.toNat / 2])
      = [mkState c₁ (n_results.toNat / 2 + n_results.toNat % 2),
          mkState c₂ (n_results.toNat / 2)] from rfl]
    simp only [List.map_cons, List.map_nil, List.getD_cons_zero, List.getD_cons_succ]
    rw [state_entry_sum c₁ _ hsh₁ hi₁, state_entry_sum c₂ _ hsh₂ hi₂]
    rw [hts₁, hts₂]
    omega

/-- Closed witness for `C7_two_source_fairness` on a concrete table. -/
theorem C7_two_source_fairness_witness :
    (((distribute_quota_fair [⟨"a", [("u", 3)]⟩, ⟨"b", [("u", 4)]⟩] 5).getD 0
        ("", [])).2.map (fun u => u.2)).sum
      ≤ (((distribute_quota_fair [⟨"a", [("u", 3)]⟩, ⟨"b", [("u", 4)]⟩] 5).getD 1
          ("", [])).2.map (fun u => u.2)).sum + 1 ∧
    (((distribute_quota_fair [⟨"a", [("u", 3)]⟩, ⟨"b", [("u", 4)]⟩] 5).getD 1
        ("", [])).2.map (fun u => u.2)).sum
      ≤ (((distribute_quota_fair [⟨"a", [("u", 3)]⟩, ⟨"b", [("u", 4)]⟩] 5).getD 0
          ("", [])).2.map (fun u => u.2)).sum + 1 :=
  C7_two_source_fairness ⟨"a", [("u", 3)]⟩ ⟨"b", [("u", 4)]⟩ 5 (by decide)
    (by decide) (by decide)

end MrDice
